import Mathlib

/-!
Simple-Calculator: `process_line` of `src/calc.cpp`

A shallow embedding of the line evaluator.  A line is a list of characters and
the cursor `i` is an explicit index, as in the source.  Reading `line[i]` at
`i = line.size()` yields the terminator `'\0'`.

The arithmetic of `double` is a parameter (`Arith`): the evaluator only ever
combines values with `+ - * /`, `fmod`, `pow`, `sqrt`, unary minus, and inspects
them through `right != 0` and `current > 0`.  Theorems stated for every `Arith`
hold for IEEE doubles in particular; `Arith ℚ` (exact arithmetic) evaluates the
concrete examples, `Arith Dbl` adds a value that is not a finite number, and
`bin64Arith` rounds `+ - * /` to 53 bits as IEEE-754 binary64 does.

Loops carry a fuel argument and return `none` when it runs out; every theorem
below states a `some _` result, so it covers termination of the run it is about.
-/

namespace Calc

/-! ## Arithmetic interface -/

/-- The operations of `double` used by the calculator. -/
class Arith (α : Type) where
  /-- Conversion of a small non-negative `int` constant. -/
  ofNat : Nat → α
  add : α → α → α
  sub : α → α → α
  mul : α → α → α
  div : α → α → α
  neg : α → α
  /-- The library function `std::fmod`. -/
  fmod : α → α → α
  /-- The library function `std::pow`. -/
  pow : α → α → α
  /-- The library function `std::sqrt`. -/
  sqrt : α → α
  /-- The test `x == 0` (so `x != 0` is its negation). -/
  isZero : α → Bool
  /-- The test `x > 0`. -/
  gt0 : α → Bool

/-- Truncated remainder on rationals: `x - y * trunc (x / y)`. -/
def ratFmod (x y : ℚ) : ℚ := x - y * (((x / y).num.tdiv (x / y).den : ℤ) : ℚ)

/-- Power on rationals: exact for integer exponents (other exponents have no
rational value in general; they yield `0` here and no result relies on them). -/
def ratPow (x y : ℚ) : ℚ := if y.den = 1 then x ^ y.num else 0

/-- Exact rational arithmetic; `sqrt` is exact on squares of rationals. -/
instance ratArith : Arith ℚ where
  ofNat n := (n : ℚ)
  add x y := x + y
  sub x y := x - y
  mul x y := x * y
  div x y := x / y
  neg x := -x
  fmod := ratFmod
  pow := ratPow
  sqrt := Rat.sqrt
  isZero x := decide (x = 0)
  gt0 x := decide (0 < x)

/-! ## Characters -/

/-- The read `line[i]`; the position `line.size()` holds the terminator. -/
def charAt (line : List Char) (i : Nat) : Char := line.getD i '\x00'

/-- The test `std::isdigit` in the "C" locale. -/
def isdigit (c : Char) : Bool := decide (48 ≤ c.toNat) && decide (c.toNat ≤ 57)

/-- The test `std::isspace` in the "C" locale: space, `\t`, `\n`, `\v`, `\f`, `\r`. -/
def isspace (c : Char) : Bool := c.toNat == 32 || (decide (9 ≤ c.toNat) && decide (c.toNat ≤ 13))

/-- The value `c - '0'` of a digit character. -/
def digitVal (c : Char) : Nat := c.toNat - 48

/-! ## Operators -/

def max_decimal_digits : Nat := 10

inductive Op where
  | ERR | SET | ADD | SUB | MUL | DIV | REM | NEG | POW | SQRT
  deriving DecidableEq, Repr

def arity : Op → Nat
  | Op.ERR => 0
  | Op.NEG => 1
  | Op.SQRT => 1
  | Op.SET => 2
  | Op.ADD => 2
  | Op.SUB => 2
  | Op.MUL => 2
  | Op.DIV => 2
  | Op.REM => 2
  | Op.POW => 2

/-- The `rollback` lambda of `parse_op`: `i -= n; return Op::ERR`. -/
def rollback (i n : Nat) : Op × Nat := (Op.ERR, i - n)

/-- The tail of each parenthesized case: `switch (line[i++]) { case ')': return op; default: return rollback(2); }`. -/
def parse_close (line : List Char) (i : Nat) (op : Op) : Op × Nat :=
  if charAt line i = ')' then (op, i + 1) else rollback (i + 1) 2

/-- The tokenizer `parse_op`: returns the operator and the updated cursor.  Every `line[i++]`
reads at `i` and advances.  The inner switch of the `'('` case has no default, so
an unmatched second character falls through to the outer `default`. -/
def parse_op (line : List Char) (i : Nat) : Op × Nat :=
  let c0 := charAt line i
  let i := i + 1
  if isdigit c0 then (Op.SET, i - 1)
  else if c0 = '+' then (Op.ADD, i)
  else if c0 = '-' then (Op.SUB, i)
  else if c0 = '*' then (Op.MUL, i)
  else if c0 = '/' then (Op.DIV, i)
  else if c0 = '%' then (Op.REM, i)
  else if c0 = '_' then (Op.NEG, i)
  else if c0 = '^' then (Op.POW, i)
  else if c0 = 'S' then
    let c1 := charAt line i
    let i := i + 1
    if c1 = 'Q' then
      let c2 := charAt line i
      let i := i + 1
      if c2 = 'R' then
        let c3 := charAt line i
        let i := i + 1
        if c3 = 'T' then (Op.SQRT, i) else rollback i 4
      else rollback i 3
    else rollback i 2
  else if c0 = '(' then
    let c1 := charAt line i
    let i := i + 1
    if c1 = '+' then parse_close line i Op.ADD
    else if c1 = '-' then parse_close line i Op.SUB
    else if c1 = '*' then parse_close line i Op.MUL
    else if c1 = '/' then parse_close line i Op.DIV
    else if c1 = '%' then parse_close line i Op.REM
    else if c1 = '^' then parse_close line i Op.POW
    else rollback i 1
  else rollback i 1

/-- The loop of `skip_ws`, with `n` iterations left. -/
def skip_ws_loop (line : List Char) : Nat → Nat → Option Nat
  | 0, _ => none
  | n + 1, i =>
    if i < line.length ∧ isspace (charAt line i) = true then skip_ws_loop line n (i + 1)
    else some i

/-- The function `skip_ws`: at most `line.size()` characters can be skipped. -/
def skip_ws (line : List Char) (i : Nat) : Option Nat :=
  skip_ws_loop line (line.length + 1) i

section Evaluator
variable {α : Type} [Arith α]

/-- The `while` loop of `parse_arg` together with the checks after it.  The
result is the returned value and the cursor left in `i`. -/
def parse_arg_loop (line : List Char) (flag : Bool) :
    Nat → Bool → α → Nat → Bool → α → Nat → Option (α × Nat)
  | 0, _, _, _, _, _, _ => none
  | n + 1, good, res, count, integer, fraction, i =>
    if good = true ∧ i < line.length ∧ count < max_decimal_digits then
      let c := charAt line i
      if isdigit c then
        if integer then
          parse_arg_loop line flag n good
            (Arith.add (Arith.mul res (Arith.ofNat 10)) (Arith.ofNat (digitVal c)))
            (count + 1) integer fraction (i + 1)
        else
          let fraction := Arith.div fraction (Arith.ofNat 10)
          parse_arg_loop line flag n good
            (Arith.add res (Arith.mul (Arith.ofNat (digitVal c)) fraction))
            (count + 1) integer fraction (i + 1)
      else if c = '.' then
        parse_arg_loop line flag n good res count false fraction (i + 1)
      else if c = ' ' then
        if flag then some (res, i)
        else parse_arg_loop line flag n false res count integer fraction i
      else parse_arg_loop line flag n false res count integer fraction i
    else if good = false then some (Arith.ofNat 0, i)
    else if i < line.length ∨ count > max_decimal_digits then some (Arith.ofNat 0, i)
    else some (res, i)

/-- The call `parse_arg(line, i, flag)`: the returned value and the cursor left in `i`. -/
def parse_arg (line : List Char) (i : Nat) (flag : Bool) : Option (α × Nat) :=
  parse_arg_loop line flag (line.length + 2) true (Arith.ofNat 0) 0 true (Arith.ofNat 1) i

def unary (current : α) (op : Op) : α :=
  match op with
  | Op.NEG => Arith.neg current
  | Op.SQRT => if Arith.gt0 current then Arith.sqrt current else current
  | _ => current

def binary (op : Op) (left right : α) : α :=
  match op with
  | Op.SET => right
  | Op.ADD => Arith.add left right
  | Op.SUB => Arith.sub left right
  | Op.MUL => Arith.mul left right
  | Op.DIV => if Arith.isZero right then left else Arith.div left right
  | Op.REM => if Arith.isZero right then left else Arith.fmod left right
  | Op.POW => Arith.pow left right
  | _ => left

/-- The argument loop of `process_line` (`while (i < line.size())`), with the
`return currentValue` that follows it. -/
def arg_loop (line : List Char) (isFold : Bool) (op : Op) (tempValue : α) :
    Nat → α → Bool → Nat → Nat → Option α
  | 0, _, _, _, _ => none
  | n + 1, currentValue, isCorrectLine, countOfArgs, i =>
    if i < line.length then
      match skip_ws line i with
      | none => none
      | some i =>
        if countOfArgs ≠ 0 ∧ i ≥ line.length then some currentValue
        else
          let isCorrectLine :=
            if (!isdigit (charAt line i) && !isspace (charAt line i) && isFold
                  && decide (charAt line i ≠ '.'))
                || (decide (op = Op.REM) && decide (charAt line i = '0'))
            then false else isCorrectLine
          let old_i := i
          match parse_arg line i isFold with
          | none => none
          | some (arg, i) =>
            if i = old_i then some tempValue
            else if isFold = false ∧ i < line.length then some currentValue
            else if isCorrectLine then
              arg_loop line isFold op tempValue n (binary op currentValue arg)
                isCorrectLine (countOfArgs + 1) i
            else some tempValue
    else some currentValue

/-- The fold flag: `line[0] == '(' && line[2] == ')'`.  Index 2 is read only
when `line[0]` is `(`; on the one-character line `(` it lies beyond the
terminator, where `charAt` yields `'\0'` (that line is rejected by `parse_op`
whatever the flag is). -/
def fold_flag (line : List Char) : Bool :=
  decide (charAt line 0 = '(') && decide (charAt line 2 = ')')

/-- The body of `process_line` after the fold flag has been computed. -/
def process_line_core (isFold : Bool) (currentValue : α) (line : List Char) : Option α :=
  let tempValue := currentValue
  let r := parse_op line 0
  let op := r.1
  let i := r.2
  if arity op = 2 then
    if (line.length = 1 ∧ isdigit (charAt line i) = false) ∨ (line.length > 1 ∧ i = line.length)
    then some currentValue
    else arg_loop line isFold op tempValue (line.length + 1) currentValue true 0 i
  else if arity op = 1 then
    if i < line.length then some currentValue
    else some (unary currentValue op)
  else some currentValue

/-- The call `process_line(currentValue, line)`. -/
def process_line (currentValue : α) (line : List Char) : Option α :=
  process_line_core (fold_flag line) currentValue line

/-! ## Literals and lines, as the specification describes them -/

/-- A decimal literal: integer digits, optionally followed by `.` and fractional
digits. -/
structure Literal where
  ints : List (Fin 10)
  frac : Option (List (Fin 10))

def digitChar (d : Fin 10) : Char := Char.ofNat (48 + d.val)

def digitsText (ds : List (Fin 10)) : List Char := ds.map digitChar

/-- The characters of a literal. -/
def Literal.text (x : Literal) : List Char :=
  match x.frac with
  | none => digitsText x.ints
  | some fs => digitsText x.ints ++ '.' :: digitsText fs

/-- The number of digits of a literal, integer and fractional parts together. -/
def Literal.digits (x : Literal) : Nat :=
  match x.frac with
  | none => x.ints.length
  | some fs => x.ints.length + fs.length

/-- The literal has the form digits, optionally `.` and digits (both runs non-empty). -/
def Literal.wellFormed (x : Literal) : Prop := x.ints ≠ [] ∧ x.frac ≠ some []

/-- Integer part: accumulated as `value * 10 + digit`, starting from `value`. -/
def intValueFrom (value : α) : List (Fin 10) → α
  | [] => value
  | d :: ds => intValueFrom (Arith.add (Arith.mul value (Arith.ofNat 10)) (Arith.ofNat d.val)) ds

/-- The weight `10^-k`: `1` divided `k` times by `10`. -/
def weight : Nat → α
  | 0 => Arith.ofNat 1
  | k + 1 => Arith.div (weight k) (Arith.ofNat 10)

/-- Fractional part: the digit at fractional position `k + 1` adds `digit * 10^-(k+1)`. -/
def fracValueFrom (k : Nat) (value : α) : List (Fin 10) → α
  | [] => value
  | d :: fs => fracValueFrom (k + 1) (Arith.add value (Arith.mul (Arith.ofNat d.val) (weight (k + 1)))) fs

/-- The value denoted by a literal. -/
def Literal.value (x : Literal) : α :=
  match x.frac with
  | none => intValueFrom (Arith.ofNat 0) x.ints
  | some fs => fracValueFrom 0 (intValueFrom (Arith.ofNat 0) x.ints) fs

/-- The natural number written by a digit string. -/
def decimalNat (ds : List (Fin 10)) : Nat := ds.foldl (fun n d => 10 * n + d.val) 0

/-- The exact rational number a literal denotes. -/
def Literal.toRat (x : Literal) : ℚ :=
  match x.frac with
  | none => (decimalNat x.ints : ℚ)
  | some fs => (decimalNat x.ints : ℚ) + (decimalNat fs : ℚ) / (10 : ℚ) ^ fs.length

/-- The operator written by a binary symbol. -/
def symbolOp (s : Char) : Op :=
  if s = '+' then Op.ADD
  else if s = '-' then Op.SUB
  else if s = '*' then Op.MUL
  else if s = '/' then Op.DIV
  else if s = '%' then Op.REM
  else if s = '^' then Op.POW
  else Op.ERR

/-- The symbols `+ - * / % ^`. -/
def isBinarySymbol (s : Char) : Prop :=
  s = '+' ∨ s = '-' ∨ s = '*' ∨ s = '/' ∨ s = '%' ∨ s = '^'

/-- The symbols `+ - * /`. -/
def isFieldSymbol (s : Char) : Prop :=
  s = '+' ∨ s = '-' ∨ s = '*' ∨ s = '/'

/-- What the specification says one application of a symbol does: the plain
arithmetic result, except that dividing (or taking the remainder) by an argument
equal to `0` leaves the left operand unchanged. -/
def combine (s : Char) (left right : α) : α :=
  if s = '+' then Arith.add left right
  else if s = '-' then Arith.sub left right
  else if s = '*' then Arith.mul left right
  else if s = '/' then (if Arith.isZero right then left else Arith.div left right)
  else if s = '%' then (if Arith.isZero right then left else Arith.fmod left right)
  else if s = '^' then Arith.pow left right
  else left

/-- The argument list of a fold line: every literal preceded by `k + 1` spaces. -/
def argsText : List (Nat × Literal) → List Char
  | [] => []
  | (k, x) :: rest => List.replicate (k + 1) ' ' ++ (x.text ++ argsText rest)

/-- The line starts with a recognized operator: a digit, one of `+ - * / % ^ _`,
the four characters `SQRT`, or `(` symbol `)`. -/
def startsWithOperator (line : List Char) : Prop :=
  (∃ c t, line = c :: t ∧ (isdigit c = true ∨ isBinarySymbol c ∨ c = '_'))
    ∨ (∃ t, line = 'S' :: 'Q' :: 'R' :: 'T' :: t)
    ∨ (∃ s t, isBinarySymbol s ∧ line = '(' :: s :: ')' :: t)

end Evaluator

/-! ## Further notions used by the claims on robustness -/

section Robustness
variable {α : Type} [Arith α]

/-- A property of values that every arithmetic operation the evaluator performs
preserves: constants, `+ - *`, `pow`, unary minus, `/` and `fmod` by an argument
that does not test equal to `0`, `sqrt` of a value that tests `> 0`, and the
division by `10` of the scanner. -/
structure Closed (P : α → Prop) : Prop where
  ofNat : ∀ n, P (Arith.ofNat n)
  add : ∀ x y, P x → P y → P (Arith.add x y)
  sub : ∀ x y, P x → P y → P (Arith.sub x y)
  mul : ∀ x y, P x → P y → P (Arith.mul x y)
  pow : ∀ x y, P x → P y → P (Arith.pow x y)
  neg : ∀ x, P x → P (Arith.neg x)
  div : ∀ x y, P x → P y → Arith.isZero y = false → P (Arith.div x y)
  fmod : ∀ x y, P x → P y → Arith.isZero y = false → P (Arith.fmod x y)
  sqrt : ∀ x, P x → Arith.gt0 x = true → P (Arith.sqrt x)
  tenth : ∀ x, P x → P (Arith.div x (Arith.ofNat 10))

end Robustness

/-! ## A model of `double` with a non-finite value -/

/-- A model of `double` that tells a finite value from one that is not: a value
is an exact rational or `nan`.  An operation with a `nan` operand returns `nan`
and every comparison with `nan` fails.  The domain errors of the C library are
kept: `pow` of a negative base with a non-integer exponent, `sqrt` of a negative
value, and division or `fmod` by zero return `nan`.  Rounding and overflow are
not modelled. -/
inductive Dbl where
  | fin (q : ℚ)
  | nan

/-- A total binary operation on rationals, extended to `Dbl`. -/
def Dbl.lift (f : ℚ → ℚ → ℚ) : Dbl → Dbl → Dbl
  | Dbl.fin x, Dbl.fin y => Dbl.fin (f x y)
  | _, _ => Dbl.nan

/-- The library function `std::pow` on `Dbl`. -/
def Dbl.pow : Dbl → Dbl → Dbl
  | Dbl.fin x, Dbl.fin y => if x < 0 ∧ y.den ≠ 1 then Dbl.nan else Dbl.fin (ratPow x y)
  | _, _ => Dbl.nan

/-- Division and `fmod` on `Dbl`: `nan` on a zero divisor. -/
def Dbl.liftNonzero (f : ℚ → ℚ → ℚ) : Dbl → Dbl → Dbl
  | Dbl.fin x, Dbl.fin y => if y = 0 then Dbl.nan else Dbl.fin (f x y)
  | _, _ => Dbl.nan

instance dblArith : Arith Dbl where
  ofNat n := Dbl.fin (n : ℚ)
  add := Dbl.lift (fun x y => x + y)
  sub := Dbl.lift (fun x y => x - y)
  mul := Dbl.lift (fun x y => x * y)
  div := Dbl.liftNonzero (fun x y => x / y)
  neg x := match x with
    | Dbl.fin q => Dbl.fin (-q)
    | Dbl.nan => Dbl.nan
  fmod := Dbl.liftNonzero ratFmod
  pow := Dbl.pow
  sqrt x := match x with
    | Dbl.fin q => if q < 0 then Dbl.nan else Dbl.fin (Rat.sqrt q)
    | Dbl.nan => Dbl.nan
  isZero x := match x with
    | Dbl.fin q => decide (q = 0)
    | Dbl.nan => false
  gt0 x := match x with
    | Dbl.fin q => decide (0 < q)
    | Dbl.nan => false

/-! ## Literals with several decimal points -/

/-- The text of the groups of digits that follow the integer part, each group
preceded by a `.`. -/
def groupsText : List (List (Fin 10)) → List Char
  | [] => []
  | g :: gs => '.' :: (digitsText g ++ groupsText gs)

/-- The digits of all the groups, in order. -/
def groupsDigits : List (List (Fin 10)) → List (Fin 10)
  | [] => []
  | g :: gs => g ++ groupsDigits gs

/-! ## The indices read outside the loops -/

/-- The indices read by the fold-mode detection `line[0] == '(' && line[2] == ')'`:
the right operand of `&&` is evaluated only when the left one holds. -/
def fold_flag_reads (line : List Char) : List Nat :=
  if charAt line 0 = '(' then [0, 2] else [0]

/-- The indices read by `parse_op` started at cursor `i`: one read per
`line[i++]` executed. -/
def parse_op_reads (line : List Char) (i : Nat) : List Nat :=
  let c0 := charAt line i
  if c0 = 'S' then
    if charAt line (i + 1) = 'Q' then
      if charAt line (i + 2) = 'R' then [i, i + 1, i + 2, i + 3]
      else [i, i + 1, i + 2]
    else [i, i + 1]
  else if c0 = '(' then
    let c1 := charAt line (i + 1)
    if c1 = '+' ∨ c1 = '-' ∨ c1 = '*' ∨ c1 = '/' ∨ c1 = '%' ∨ c1 = '^' then [i, i + 1, i + 2]
    else [i, i + 1]
  else [i]

/-! ## A model of `double` with rounding -/

/-- Round a non-negative rational to the nearest integer, a tie going to the
even one. -/
def roundHalfEven (x : ℚ) : ℤ :=
  if x - ⌊x⌋ < 1 / 2 then ⌊x⌋
  else if 1 / 2 < x - ⌊x⌋ then ⌊x⌋ + 1
  else if ⌊x⌋ % 2 = 0 then ⌊x⌋ else ⌊x⌋ + 1

/-- Round to the nearest number with a 53-bit significand, ties to even: the
rounding of IEEE-754 binary64 (`double`) in its normal range.  The exponent is
not bounded: overflow and subnormal numbers are not modelled. -/
def round53 (q : ℚ) : ℚ :=
  if q = 0 then 0
  else (if q < 0 then -1 else 1)
    * ((roundHalfEven (|q| / (2 : ℚ) ^ (Int.log 2 |q| - 52)) : ℤ) : ℚ)
    * (2 : ℚ) ^ (Int.log 2 |q| - 52)

/-- A finite `double`, given by the rational number it denotes. -/
structure Bin64 where
  val : ℚ

/-- The arithmetic of `double` in its normal range: `+ - * /` return the exact
result rounded by `round53`, as IEEE-754 prescribes; unary minus and `fmod` are
exact; the comparisons are those of the values.  The library functions
`std::pow` and `std::sqrt` are parameters.  Division by zero, which the
calculator never performs, is not modelled. -/
def bin64Arith (pw : Bin64 → Bin64 → Bin64) (sq : Bin64 → Bin64) : Arith Bin64 where
  ofNat n := ⟨round53 (n : ℚ)⟩
  add x y := ⟨round53 (x.val + y.val)⟩
  sub x y := ⟨round53 (x.val - y.val)⟩
  mul x y := ⟨round53 (x.val * y.val)⟩
  div x y := ⟨round53 (x.val / y.val)⟩
  neg x := ⟨-x.val⟩
  fmod x y := ⟨ratFmod x.val y.val⟩
  pow := pw
  sqrt := sq
  isZero x := decide (x.val = 0)
  gt0 x := decide (0 < x.val)

/-! ## Checked arithmetic -/

section Checked
variable {α : Type} [Arith α]

end Checked

end Calc

namespace Calc

/-! ## Cursors and characters -/

theorem drop_cons_lt {line : List Char} {i : Nat} {c : Char} {t : List Char}
    (h : line.drop i = c :: t) : i < line.length := by
  by_contra hh
  rw [List.drop_eq_nil_of_le (by omega)] at h
  cases h

theorem drop_cons_charAt {l : List Char} {i : Nat} {c : Char} {t : List Char}
    (h : l.drop i = c :: t) : charAt l i = c := by
  have h2 : l[i]? = some c := by
    rw [← List.head?_drop, h]; rfl
  simp [charAt, List.getD_eq_getElem?_getD, h2]

theorem drop_cons_succ {line : List Char} {i : Nat} {c : Char} {t : List Char}
    (h : line.drop i = c :: t) : line.drop (i + 1) = t := by
  rw [← List.drop_drop 1 i]
  simp [h]

theorem drop_nil_le {line : List Char} {i : Nat} (h : line.drop i = []) :
    line.length ≤ i := by
  simpa using h

theorem drop_length_eq {line : List Char} {i : Nat} {s t : List Char}
    (h : line.drop i = s ++ t) : s.length + t.length = line.length - i := by
  have h1 : (line.drop i).length = s.length + t.length := by rw [h]; simp
  rw [List.length_drop] at h1
  omega

theorem charAt_of_le {line : List Char} {i : Nat} (h : line.length ≤ i) :
    charAt line i = '\x00' := by
  simp [charAt, List.getD_eq_getElem?_getD, List.getElem?_eq_none h]

theorem isdigit_digitChar (d : Fin 10) : isdigit (digitChar d) = true := by
  fin_cases d <;> rfl

theorem digitVal_digitChar (d : Fin 10) : digitVal (digitChar d) = d.val := by
  fin_cases d <;> rfl

theorem isspace_digitChar (d : Fin 10) : isspace (digitChar d) = false := by
  fin_cases d <;> rfl

/-! ## `skip_ws` -/

theorem skip_ws_loop_run (line : List Char) (rest : List Char) (n : Nat)
    (hrest : ∀ c, rest.head? = some c → isspace c = false) :
    ∀ (ws : List Char) (i : Nat), line.drop i = ws ++ rest →
      (∀ c ∈ ws, isspace c = true) →
      skip_ws_loop line (ws.length + (n + 1)) i = some (i + ws.length) := by
  intro ws
  induction ws with
  | nil =>
    intro i h _
    rcases rest with _ | ⟨c, t⟩
    · have hle := drop_nil_le (by simpa using h)
      simp [skip_ws_loop]
      omega
    · have hc := drop_cons_charAt (by simpa using h)
      have hs := hrest c rfl
      simp [skip_ws_loop, hc, hs]
  | cons w ws ih =>
    intro i h hws
    have hlt := drop_cons_lt (by simpa using h)
    have hc := drop_cons_charAt (by simpa using h)
    have hnext := drop_cons_succ (by simpa using h)
    have hw : isspace w = true := hws w (by simp)
    have hfuel : (w :: ws).length + (n + 1) = (ws.length + (n + 1)) + 1 := by
      simp; omega
    rw [hfuel, skip_ws_loop]
    simp only [hlt, hc, hw, and_self, if_true]
    rw [ih (i + 1) hnext (fun c hcm => hws c (by simp [hcm]))]
    simp; omega

/-- The scan of `skip_ws` stops right after a run of whitespace that is followed by the end
of the line or by a character that is not whitespace. -/
theorem skip_ws_run {line : List Char} {i : Nat} {ws rest : List Char}
    (h : line.drop i = ws ++ rest) (hws : ∀ c ∈ ws, isspace c = true)
    (hrest : ∀ c, rest.head? = some c → isspace c = false) :
    skip_ws line i = some (i + ws.length) := by
  have hlen := drop_length_eq h
  have hfuel : line.length + 1 = ws.length + ((line.length - ws.length) + 1) := by omega
  rw [skip_ws, hfuel]
  exact skip_ws_loop_run line rest _ hrest ws i h hws

/-! ## `parse_arg` on a literal -/

section Scanner
variable {α : Type} [Arith α]

theorem parse_arg_loop_ints (line : List Char) (flag : Bool) (n : Nat) (fraction : α)
    (rest : List Char) :
    ∀ (ds : List (Fin 10)) (i : Nat) (res : α) (count : Nat),
      line.drop i = digitsText ds ++ rest → count + ds.length ≤ max_decimal_digits →
      parse_arg_loop line flag (ds.length + n) true res count true fraction i
        = parse_arg_loop line flag n true (intValueFrom res ds) (count + ds.length) true
            fraction (i + ds.length) := by
  intro ds
  induction ds with
  | nil => intro i res count _ _; simp [intValueFrom]
  | cons d ds ih =>
    intro i res count h hcount
    have h' : line.drop i = digitChar d :: (digitsText ds ++ rest) := by
      simpa [digitsText] using h
    have hlt := drop_cons_lt h'
    have hc := drop_cons_charAt h'
    have hnext := drop_cons_succ h'
    have hcnt : count < max_decimal_digits := by simp at hcount; omega
    have hfuel : (d :: ds).length + n = (ds.length + n) + 1 := by simp; omega
    rw [hfuel, parse_arg_loop]
    simp only [hlt, hcnt, hc, isdigit_digitChar, digitVal_digitChar, and_self, if_true]
    rw [ih (i + 1) _ (count + 1) hnext (by simp at hcount; omega)]
    simp only [intValueFrom, List.length_cons]
    congr 1 <;> omega

theorem parse_arg_loop_fracs (line : List Char) (flag : Bool) (n : Nat)
    (rest : List Char) :
    ∀ (fs : List (Fin 10)) (i : Nat) (res : α) (count k : Nat),
      line.drop i = digitsText fs ++ rest → count + fs.length ≤ max_decimal_digits →
      parse_arg_loop line flag (fs.length + n) true res count false (weight k) i
        = parse_arg_loop line flag n true (fracValueFrom k res fs) (count + fs.length) false
            (weight (k + fs.length)) (i + fs.length) := by
  intro fs
  induction fs with
  | nil => intro i res count k _ _; simp [fracValueFrom]
  | cons d fs ih =>
    intro i res count k h hcount
    have h' : line.drop i = digitChar d :: (digitsText fs ++ rest) := by
      simpa [digitsText] using h
    have hlt := drop_cons_lt h'
    have hc := drop_cons_charAt h'
    have hnext := drop_cons_succ h'
    have hcnt : count < max_decimal_digits := by simp at hcount; omega
    have hfuel : (d :: fs).length + n = (fs.length + n) + 1 := by simp; omega
    rw [hfuel, parse_arg_loop]
    simp only [hlt, hcnt, hc, isdigit_digitChar, digitVal_digitChar, and_self, if_true]
    have hw : Arith.div (weight k : α) (Arith.ofNat 10) = weight (k + 1) := rfl
    simp only [Bool.false_eq_true, if_false, hw]
    rw [ih (i + 1) _ (count + 1) (k + 1) hnext (by simp at hcount; omega)]
    simp only [fracValueFrom, List.length_cons]
    congr 1 <;> first | omega | (congr 1; omega)

theorem Literal.ints_lt_of_wellFormed {x : Literal} (hx : x.wellFormed)
    (hd : x.digits ≤ max_decimal_digits) :
    ∀ fs, x.frac = some fs → x.ints.length < max_decimal_digits := by
  intro fs hfs
  have hne : fs ≠ [] := by
    intro h; exact hx.2 (by rw [hfs, h])
  have hpos : 0 < fs.length := List.length_pos.mpr hne
  simp only [Literal.digits, hfs] at hd
  omega

theorem parse_arg_loop_literal (line : List Char) (flag : Bool) (n : Nat) (rest : List Char)
    (x : Literal) (i : Nat) (h : line.drop i = x.text ++ rest)
    (hd : x.digits ≤ max_decimal_digits)
    (hdot : ∀ fs, x.frac = some fs → x.ints.length < max_decimal_digits) :
    ∃ (integer : Bool) (fraction : α),
      parse_arg_loop line flag (x.text.length + n) true (Arith.ofNat 0) 0 true (Arith.ofNat 1) i
        = parse_arg_loop line flag n true (x.value : α) x.digits integer fraction
            (i + x.text.length) := by
  rcases x with ⟨ints, frac⟩
  cases frac with
  | none =>
    refine ⟨true, Arith.ofNat 1, ?_⟩
    simp only [Literal.text, Literal.digits, Literal.value] at h hd ⊢
    have := parse_arg_loop_ints line flag n (Arith.ofNat 1 : α) rest ints i (Arith.ofNat 0) 0 h
      (by omega)
    simpa [digitsText] using this
  | some fs =>
    refine ⟨false, weight (0 + fs.length), ?_⟩
    have hi := hdot fs rfl
    simp only [Literal.text, Literal.digits, Literal.value] at h hd ⊢
    have h1 : line.drop i = digitsText ints ++ ('.' :: (digitsText fs ++ rest)) := by
      simpa using h
    have hfuel : (digitsText ints ++ '.' :: digitsText fs).length + n
        = ints.length + ((fs.length + n) + 1) := by
      simp [digitsText]; omega
    rw [hfuel, parse_arg_loop_ints line flag _ (Arith.ofNat 1 : α) _ ints i (Arith.ofNat 0) 0 h1
      (by omega)]
    have h2 : line.drop (i + ints.length) = '.' :: (digitsText fs ++ rest) := by
      rw [← List.drop_drop, h1]
      have : ints.length = (digitsText ints).length := by simp [digitsText]
      rw [this, List.drop_left]
    have hlt := drop_cons_lt h2
    have hc := drop_cons_charAt h2
    have hnext := drop_cons_succ h2
    rw [parse_arg_loop]
    have hnd : isdigit '.' = false := by decide
    simp only [hlt, hc, hnd, Nat.zero_add, hi, and_self, if_true, Bool.false_eq_true, if_false]
    have hw : (Arith.ofNat 1 : α) = weight 0 := rfl
    rw [hw, parse_arg_loop_fracs line flag n rest fs _ _ ints.length 0 hnext (by omega)]
    congr 1
    simp [digitsText]; omega

/-- A well-formed literal of at most 10 digits that ends the line is parsed to
its value, whatever the fold flag, and the cursor reaches the end of the line. -/
theorem parse_arg_literal_end {line : List Char} {i : Nat} (flag : Bool) {x : Literal}
    (h : line.drop i = x.text) (hx : x.wellFormed) (hd : x.digits ≤ max_decimal_digits) :
    parse_arg line i flag = some ((x.value : α), line.length) := by
  have hlen := @drop_length_eq line i x.text [] (by simpa using h)
  have hne : x.text ≠ [] := by
    rcases x with ⟨ints, frac⟩
    cases frac <;> simp [Literal.text, digitsText, hx.1]
  have hil : i < line.length := by
    rcases hxt : x.text with _ | ⟨c, t⟩
    · exact absurd hxt hne
    · exact drop_cons_lt (h.trans hxt)
  obtain ⟨integer, fraction, hrun⟩ := @parse_arg_loop_literal α _ line flag
    ((line.length - x.text.length + 1) + 1) [] x i (by simpa using h) hd
    (Literal.ints_lt_of_wellFormed hx hd)
  have hfuel : line.length + 2 = x.text.length + ((line.length - x.text.length + 1) + 1) := by
    simp at hlen; omega
  have hend : i + x.text.length = line.length := by simp at hlen; omega
  rw [parse_arg, hfuel, hrun, hend, parse_arg_loop]
  have h10 : ¬ x.digits > max_decimal_digits := by omega
  simp [h10]

/-- In fold mode a well-formed literal of fewer than 10 digits that is followed
by a space is parsed to its value and the cursor stops at the space. -/
theorem parse_arg_literal_space {line : List Char} {i : Nat} {x : Literal} {rest : List Char}
    (h : line.drop i = x.text ++ ' ' :: rest) (hx : x.wellFormed)
    (hd : x.digits < max_decimal_digits) :
    parse_arg line i true = some ((x.value : α), i + x.text.length) := by
  have hlen := drop_length_eq h
  obtain ⟨integer, fraction, hrun⟩ := @parse_arg_loop_literal α _ line true
    ((line.length - x.text.length + 1) + 1) (' ' :: rest) x i h (by omega)
    (Literal.ints_lt_of_wellFormed hx (by omega))
  have hfuel : line.length + 2 = x.text.length + ((line.length - x.text.length + 1) + 1) := by
    omega
  have h2 : line.drop (i + x.text.length) = ' ' :: rest := by
    rw [← List.drop_drop, h, List.drop_left]
  have hlt := drop_cons_lt h2
  have hc := drop_cons_charAt h2
  rw [parse_arg, hfuel, hrun, parse_arg_loop]
  have hnd : isdigit ' ' = false := by decide
  have hns : ¬ (' ' = '.') := by decide
  simp [hlt, hc, hnd, hd, hns]

theorem Literal.text_eq_cons {x : Literal} (hx : x.wellFormed) :
    ∃ (d : Fin 10) (t : List Char), x.text = digitChar d :: t ∧ x.ints.head? = some d := by
  rcases x with ⟨ints, frac⟩
  rcases ints with _ | ⟨d, ds⟩
  · exact absurd rfl hx.1
  · cases frac with
    | none => exact ⟨d, digitsText ds, by simp [Literal.text, digitsText], rfl⟩
    | some fs =>
      exact ⟨d, digitsText ds ++ '.' :: digitsText fs, by simp [Literal.text, digitsText], rfl⟩

theorem digitChar_eq_zero_iff (d : Fin 10) : digitChar d = '0' ↔ d = 0 := by
  fin_cases d <;> decide

/-! ## The argument loop on a single literal -/

/-- One literal (after optional whitespace) that ends the line: the loop applies
the operator once, unless the operator is `REM` and the literal starts with `0`,
in which case the snapshot is returned. -/
theorem arg_loop_single (line : List Char) (isFold : Bool) (op : Op) (temp cur : α)
    (n cnt i : Nat) (ws : List Char) (x : Literal)
    (h : line.drop i = ws ++ x.text) (hws : ∀ c ∈ ws, isspace c = true)
    (hx : x.wellFormed) (hd : x.digits ≤ max_decimal_digits) :
    arg_loop line isFold op temp (n + 2) cur true cnt i
      = some (if op = Op.REM ∧ x.ints.head? = some 0 then temp
              else binary op cur (x.value : α)) := by
  obtain ⟨d, t, htext, hhead⟩ := Literal.text_eq_cons hx
  have hlen := drop_length_eq h
  have htl : 0 < x.text.length := by rw [htext]; simp
  have hil : i < line.length := by omega
  have hskip : skip_ws line i = some (i + ws.length) := by
    apply skip_ws_run h hws
    intro c hc
    rw [htext] at hc
    simp at hc
    rw [← hc]; exact isspace_digitChar d
  have hj : line.drop (i + ws.length) = x.text := by
    rw [← List.drop_drop, h, List.drop_left]
  have hjc : charAt line (i + ws.length) = digitChar d := drop_cons_charAt (hj.trans htext)
  have hjl : i + ws.length < line.length := drop_cons_lt (hj.trans htext)
  have hparse := @parse_arg_literal_end α _ line (i + ws.length) isFold x hj hx hd
  rw [arg_loop]
  simp only [hil, if_true, hskip, hparse, hjc, isdigit_digitChar]
  have hne : ¬ (line.length = i + ws.length) := by omega
  have hge : ¬ (i + ws.length ≥ line.length) := by omega
  simp only [hne, hge, and_false, if_false, lt_self_iff_false, Bool.not_true, Bool.false_and,
    Bool.false_or, digitChar_eq_zero_iff, hhead]
  by_cases hrem : op = Op.REM
  · by_cases hz : d = 0
    · simp [hrem, hz]
    · have hz' : ¬ (some d = some (0 : Fin 10)) := by simpa using hz
      simp [hrem, hz, hz', arg_loop]
  · simp [hrem, arg_loop]

/-! ## The operator tokenizer on well-formed operators -/

theorem parse_op_digit (c : Char) (t : List Char) (hc : isdigit c = true) :
    parse_op (c :: t) 0 = (Op.SET, 0) := by
  simp [parse_op, charAt, hc]

theorem parse_op_bare (s : Char) (t : List Char) (hs : isBinarySymbol s) :
    parse_op (s :: t) 0 = (symbolOp s, 1) := by
  rcases hs with rfl | rfl | rfl | rfl | rfl | rfl <;>
    simp [parse_op, charAt, symbolOp] <;> decide

theorem parse_op_paren (s : Char) (t : List Char) (hs : isBinarySymbol s) :
    parse_op ('(' :: s :: ')' :: t) 0 = (symbolOp s, 3) := by
  rcases hs with rfl | rfl | rfl | rfl | rfl | rfl <;>
    simp [parse_op, parse_close, charAt, symbolOp] <;> decide

theorem arity_symbolOp (s : Char) (hs : isBinarySymbol s) : arity (symbolOp s) = 2 := by
  rcases hs with rfl | rfl | rfl | rfl | rfl | rfl <;> rfl

theorem fold_flag_paren (s : Char) (t : List Char) : fold_flag ('(' :: s :: ')' :: t) = true := by
  simp [fold_flag, charAt]

theorem fold_flag_of_ne (c : Char) (t : List Char) (hc : c ≠ '(') :
    fold_flag (c :: t) = false := by
  simp [fold_flag, charAt, hc]

theorem isBinarySymbol.ne_paren {s : Char} (hs : isBinarySymbol s) : s ≠ '(' := by
  rcases hs with rfl | rfl | rfl | rfl | rfl | rfl <;> decide

theorem isBinarySymbol.ne_nul {s : Char} (hs : isBinarySymbol s) : s ≠ '\x00' := by
  rcases hs with rfl | rfl | rfl | rfl | rfl | rfl <;> decide

theorem isdigit_ne_paren {c : Char} (hc : isdigit c = true) : c ≠ '(' := by
  intro h; rw [h] at hc; exact absurd hc (by decide)

/-! ## Lines with exactly one literal argument -/

/-- A bare symbol, optional whitespace, one literal. -/
theorem process_line_bare (v : α) (s : Char) (hs : isBinarySymbol s) (ws : List Char)
    (hws : ∀ c ∈ ws, isspace c = true) (x : Literal) (hx : x.wellFormed)
    (hd : x.digits ≤ max_decimal_digits) :
    process_line v (s :: (ws ++ x.text))
      = some (if symbolOp s = Op.REM ∧ x.ints.head? = some 0 then v
              else binary (symbolOp s) v (x.value : α)) := by
  obtain ⟨d, t, htext, -⟩ := Literal.text_eq_cons hx
  have hlen : (s :: (ws ++ x.text)).length = (ws.length + t.length) + 2 := by
    rw [htext]; simp; omega
  rw [process_line, fold_flag_of_ne s _ hs.ne_paren, process_line_core]
  simp only [parse_op_bare s _ hs, arity_symbolOp s hs, if_true]
  have hc : ¬ ((s :: (ws ++ x.text)).length = 1 ∧ isdigit (charAt (s :: (ws ++ x.text)) 1) = false
      ∨ (s :: (ws ++ x.text)).length > 1 ∧ 1 = (s :: (ws ++ x.text)).length) := by
    rw [hlen]; omega
  rw [if_neg hc, hlen]
  exact arg_loop_single _ false _ v v _ 0 1 ws x (by simp) hws hx hd

/-- A parenthesized symbol, optional whitespace, one literal. -/
theorem process_line_paren_single (v : α) (s : Char) (hs : isBinarySymbol s) (ws : List Char)
    (hws : ∀ c ∈ ws, isspace c = true) (x : Literal) (hx : x.wellFormed)
    (hd : x.digits ≤ max_decimal_digits) :
    process_line v ('(' :: s :: ')' :: (ws ++ x.text))
      = some (if symbolOp s = Op.REM ∧ x.ints.head? = some 0 then v
              else binary (symbolOp s) v (x.value : α)) := by
  obtain ⟨d, t, htext, -⟩ := Literal.text_eq_cons hx
  have hlen : ('(' :: s :: ')' :: (ws ++ x.text)).length = (ws.length + t.length + 2) + 2 := by
    rw [htext]; simp; omega
  rw [process_line, fold_flag_paren, process_line_core]
  simp only [parse_op_paren s _ hs, arity_symbolOp s hs, if_true]
  have hc : ¬ (('(' :: s :: ')' :: (ws ++ x.text)).length = 1
        ∧ isdigit (charAt ('(' :: s :: ')' :: (ws ++ x.text)) 3) = false
      ∨ ('(' :: s :: ')' :: (ws ++ x.text)).length > 1
        ∧ 3 = ('(' :: s :: ')' :: (ws ++ x.text)).length) := by
    rw [hlen]; omega
  rw [if_neg hc, hlen]
  exact arg_loop_single _ true _ v v _ 0 3 ws x (by simp) hws hx hd

/-- A line that is one literal: the implicit `Set`. -/
theorem process_line_set (v : α) (x : Literal) (hx : x.wellFormed)
    (hd : x.digits ≤ max_decimal_digits) :
    process_line v x.text = some (x.value : α) := by
  obtain ⟨d, t, htext, -⟩ := Literal.text_eq_cons hx
  have hlen : x.text.length = t.length + 1 := by rw [htext]; simp
  have hdig := isdigit_digitChar d
  rw [process_line, process_line_core]
  have hop : parse_op x.text 0 = (Op.SET, 0) := by
    rw [htext]; exact parse_op_digit _ _ hdig
  have hff : fold_flag x.text = false := by
    rw [htext]; exact fold_flag_of_ne _ _ (isdigit_ne_paren hdig)
  have hc0 : charAt x.text 0 = digitChar d := by rw [htext]; simp [charAt]
  simp only [hop, hff, arity, if_true, hc0, hdig]
  have hc : ¬ (x.text.length = 1 ∧ true = false ∨ x.text.length > 1 ∧ 0 = x.text.length) := by
    rw [hlen]; simp
  rw [if_neg hc, hlen]
  have := arg_loop_single x.text false Op.SET v v t.length 0 0 [] x (by simp) (by simp) hx hd
  simpa [binary] using this

/-! ## Fold mode on a list of literals -/

theorem binary_symbolOp (s : Char) (hs : isBinarySymbol s) (left right : α) :
    binary (symbolOp s) left right = combine s left right := by
  rcases hs with rfl | rfl | rfl | rfl | rfl | rfl <;>
    simp [symbolOp, combine, binary]

theorem isFieldSymbol.isBinarySymbol {s : Char} (hs : isFieldSymbol s) : isBinarySymbol s := by
  rcases hs with rfl | rfl | rfl | rfl <;> simp [Calc.isBinarySymbol]

theorem isFieldSymbol.ne_rem {s : Char} (hs : isFieldSymbol s) : symbolOp s ≠ Op.REM := by
  rcases hs with rfl | rfl | rfl | rfl <;> decide

/-- In fold mode a literal of fewer than 10 digits is parsed to its value when it
ends the line or is followed by a space. -/
theorem parse_arg_literal_fold {line : List Char} {i : Nat} {x : Literal} {rest : List Char}
    (h : line.drop i = x.text ++ rest) (hrest : rest = [] ∨ ∃ t, rest = ' ' :: t)
    (hx : x.wellFormed) (hd : x.digits < max_decimal_digits) :
    parse_arg line i true = some ((x.value : α), i + x.text.length) := by
  rcases hrest with rfl | ⟨t, rfl⟩
  · have hlen := drop_length_eq h
    obtain ⟨d, t, htext, -⟩ := Literal.text_eq_cons hx
    have hil : i < line.length := drop_cons_lt ((by simpa using h : _ = x.text).trans htext)
    rw [parse_arg_literal_end true (by simpa using h) hx (by omega)]
    simp at hlen
    congr 2; omega
  · exact parse_arg_literal_space h hx hd

theorem argsText_shape (args : List (Nat × Literal)) :
    argsText args = [] ∨ ∃ t, argsText args = ' ' :: t := by
  rcases args with _ | ⟨⟨k, x⟩, rest⟩
  · exact Or.inl rfl
  · exact Or.inr ⟨List.replicate k ' ' ++ (x.text ++ argsText rest),
      by simp [argsText, List.replicate_succ]⟩

theorem arg_loop_fold (line : List Char) (s : Char) (hs : isFieldSymbol s) (temp : α) :
    ∀ (args : List (Nat × Literal)) (i : Nat) (cur : α) (cnt n : Nat),
      line.drop i = argsText args →
      (∀ a ∈ args, a.2.wellFormed ∧ a.2.digits < max_decimal_digits) →
      args.length + 1 ≤ n →
      arg_loop line true (symbolOp s) temp n cur true cnt i
        = some (args.foldl (fun acc a => combine s acc (a.2.value : α)) cur) := by
  intro args
  induction args with
  | nil =>
    intro i cur cnt n h _ hn
    obtain ⟨n, rfl⟩ : ∃ m, n = m + 1 := ⟨n - 1, by omega⟩
    have hle := drop_nil_le (by simpa [argsText] using h)
    have : ¬ i < line.length := by omega
    simp [arg_loop, this]
  | cons a rest ih =>
    rcases a with ⟨k, x⟩
    intro i cur cnt n h hargs hn
    obtain ⟨n, rfl⟩ : ∃ m, n = m + 1 := ⟨n - 1, by simp at hn; omega⟩
    have hx : x.wellFormed := (hargs (k, x) (by simp)).1
    have hd : x.digits < max_decimal_digits := (hargs (k, x) (by simp)).2
    obtain ⟨d, t, htext, -⟩ := Literal.text_eq_cons hx
    have h' : line.drop i = List.replicate (k + 1) ' ' ++ (x.text ++ argsText rest) := by
      simpa [argsText] using h
    have hlen := drop_length_eq h'
    have hil : i < line.length := by simp at hlen; omega
    have hskip : skip_ws line i = some (i + (k + 1)) := by
      have := skip_ws_run h' (by intro c hc; rw [List.eq_of_mem_replicate hc]; decide)
        (by
          intro c hc
          rw [htext] at hc
          simp at hc
          rw [← hc]; exact isspace_digitChar d)
      simpa using this
    have hj : line.drop (i + (k + 1)) = x.text ++ argsText rest := by
      rw [← List.drop_drop, h']
      exact List.drop_left' (by simp)
    have hj' : line.drop (i + (k + 1)) = digitChar d :: (t ++ argsText rest) := by
      rw [hj, htext]; simp
    have hjc := drop_cons_charAt hj'
    have hjl := drop_cons_lt hj'
    have hparse := @parse_arg_literal_fold α _ line (i + (k + 1)) x (argsText rest) hj (argsText_shape rest) hx hd
    have hnext : line.drop (i + (k + 1) + x.text.length) = argsText rest := by
      rw [← List.drop_drop, hj, List.drop_left]
    have htl : 0 < x.text.length := by rw [htext]; simp
    rw [arg_loop]
    simp only [hil, if_true, hskip, hparse, hjc, isdigit_digitChar]
    have hne : ¬ (i + (k + 1) + x.text.length = i + (k + 1)) := by omega
    have hge : ¬ (i + (k + 1) ≥ line.length) := by omega
    simp only [hne, hge, and_false, if_false, Bool.not_true, Bool.false_and,
      Bool.false_or, hs.ne_rem, decide_False, Bool.true_eq_false, false_and, if_true]
    simp only [Bool.false_eq_true, if_false, if_true]
    rw [ih _ _ _ n hnext (fun a ha => hargs a (by simp [ha])) (by simp at hn; omega)]
    simp [binary_symbolOp s hs.isBinarySymbol]

theorem argsText_length (args : List (Nat × Literal)) :
    args.length ≤ (argsText args).length := by
  induction args with
  | nil => simp
  | cons a rest ih =>
    rcases a with ⟨k, x⟩
    simp [argsText]; omega

/-! ## Exact rational arithmetic -/

@[simp] theorem ratArith_ofNat (n : Nat) : (Arith.ofNat n : ℚ) = (n : ℚ) := rfl
@[simp] theorem ratArith_add (x y : ℚ) : Arith.add x y = x + y := rfl
@[simp] theorem ratArith_sub (x y : ℚ) : Arith.sub x y = x - y := rfl
@[simp] theorem ratArith_mul (x y : ℚ) : Arith.mul x y = x * y := rfl
@[simp] theorem ratArith_div (x y : ℚ) : Arith.div x y = x / y := rfl
@[simp] theorem ratArith_neg (x : ℚ) : Arith.neg x = -x := rfl
@[simp] theorem ratArith_isZero (x : ℚ) : Arith.isZero x = decide (x = 0) := rfl
@[simp] theorem ratArith_gt0 (x : ℚ) : Arith.gt0 x = decide (0 < x) := rfl
@[simp] theorem ratArith_fmod (x y : ℚ) : Arith.fmod x y = ratFmod x y := rfl
@[simp] theorem ratArith_pow (x y : ℚ) : Arith.pow x y = ratPow x y := rfl
@[simp] theorem ratArith_sqrt (x : ℚ) : Arith.sqrt x = Rat.sqrt x := rfl

theorem intValueFrom_rat (ds : List (Fin 10)) :
    ∀ m : Nat, intValueFrom ((m : ℚ)) ds = ((ds.foldl (fun n d => 10 * n + d.val) m : Nat) : ℚ) := by
  induction ds with
  | nil => intro m; rfl
  | cons d ds ih =>
    intro m
    simp only [intValueFrom, List.foldl_cons, ratArith_add, ratArith_mul, ratArith_ofNat]
    rw [← ih (10 * m + d.val)]
    congr 1
    push_cast
    ring

theorem weight_rat (k : Nat) : (weight k : ℚ) = 1 / (10 : ℚ) ^ k := by
  induction k with
  | zero => simp [weight]
  | succ k ih =>
    simp only [weight, ratArith_div, ratArith_ofNat, ih]
    rw [pow_succ]
    field_simp

theorem fracValueFrom_rat (fs : List (Fin 10)) :
    ∀ (k m : Nat) (r : ℚ),
      fracValueFrom k (r + (m : ℚ) / (10 : ℚ) ^ k) fs
        = r + ((fs.foldl (fun n d => 10 * n + d.val) m : Nat) : ℚ) / (10 : ℚ) ^ (k + fs.length) := by
  induction fs with
  | nil => intro k m r; simp [fracValueFrom]
  | cons d fs ih =>
    intro k m r
    simp only [fracValueFrom, List.foldl_cons, List.length_cons, ratArith_add, ratArith_mul,
      ratArith_ofNat, weight_rat]
    have h : r + (m : ℚ) / (10 : ℚ) ^ k + (d.val : ℚ) * (1 / (10 : ℚ) ^ (k + 1))
        = r + ((10 * m + d.val : Nat) : ℚ) / (10 : ℚ) ^ (k + 1) := by
      push_cast
      rw [pow_succ]
      field_simp
      ring
    rw [h, ih (k + 1) (10 * m + d.val) r]
    congr 3
    omega

/-- In exact arithmetic the value of a literal is the decimal number it denotes. -/
theorem Literal.value_rat (x : Literal) : (x.value : ℚ) = x.toRat := by
  rcases x with ⟨ints, frac⟩
  cases frac with
  | none =>
    simp only [Literal.value, Literal.toRat, decimalNat, ratArith_ofNat]
    exact intValueFrom_rat ints 0
  | some fs =>
    simp only [Literal.value, Literal.toRat, decimalNat, ratArith_ofNat]
    rw [intValueFrom_rat ints 0]
    have := fracValueFrom_rat fs 0 0 ((ints.foldl (fun n d => 10 * n + d.val) 0 : Nat) : ℚ)
    simpa using this

/-! ## Rejected arguments -/

theorem charAt_drop (line : List Char) (j n : Nat) :
    charAt line (j + n) = charAt (line.drop j) n := by
  simp [charAt, List.getD_eq_getElem?_getD, List.getElem?_drop]

theorem charAt_of_mem {s : List Char} {c : Char} (hc : c ∈ s) :
    ∃ n, n < s.length ∧ charAt s n = c := by
  obtain ⟨n, hn, hget⟩ := List.getElem_of_mem hc
  exact ⟨n, hn, by simp [charAt, List.getD_eq_getElem?_getD, List.getElem?_eq_getElem hn, hget]⟩

theorem skip_ws_loop_bound (line : List Char) (p : Nat)
    (hns : isspace (charAt line p) = false) :
    ∀ (n i : Nat), i ≤ p → p + 1 ≤ n + i →
      ∃ j, skip_ws_loop line n i = some j ∧ i ≤ j ∧ j ≤ p := by
  intro n
  induction n with
  | zero => intro i h1 h2; omega
  | succ n ih =>
    intro i h1 h2
    rw [skip_ws_loop]
    by_cases hc : i < line.length ∧ isspace (charAt line i) = true
    · have hip : i ≠ p := by
        intro h; rw [h, hns] at hc; exact absurd hc.2 (by decide)
      obtain ⟨j, hj, hij, hjp⟩ := ih (i + 1) (by omega) (by omega)
      exact ⟨j, by rw [if_pos hc, hj], by omega, hjp⟩
    · exact ⟨i, by rw [if_neg hc], le_refl i, h1⟩

/-- The scan of `skip_ws` never passes a character that is not whitespace. -/
theorem skip_ws_bound {line : List Char} {p i : Nat}
    (hns : isspace (charAt line p) = false) (hp : p < line.length) (hi : i ≤ p) :
    ∃ j, skip_ws line i = some j ∧ i ≤ j ∧ j ≤ p :=
  skip_ws_loop_bound line p hns (line.length + 1) i hi (by omega)

theorem parse_arg_loop_stuck (line : List Char) (flag : Bool) (n : Nat) (res : α) (count : Nat)
    (integer : Bool) (fraction : α) (i : Nat) :
    parse_arg_loop line flag (n + 1) false res count integer fraction i
      = some (Arith.ofNat 0, i) := by
  simp [parse_arg_loop]

theorem parse_arg_loop_bound (line : List Char) (flag : Bool) (p : Nat)
    (hnd : isdigit (charAt line p) = false) (hdot : charAt line p ≠ '.') :
    ∀ (n : Nat) (res : α) (count : Nat) (integer : Bool) (fraction : α) (i : Nat),
      i ≤ p → p + 2 ≤ n + i →
      ∃ arg j, parse_arg_loop line flag n true res count integer fraction i = some (arg, j)
        ∧ i ≤ j ∧ j ≤ p := by
  intro n
  induction n with
  | zero => intro res count integer fraction i h1 h2; omega
  | succ n ih =>
    intro res count integer fraction i h1 h2
    obtain ⟨m, rfl⟩ : ∃ m, n = m + 1 := ⟨n - 1, by omega⟩
    rw [parse_arg_loop]
    by_cases hc : true = true ∧ i < line.length ∧ count < max_decimal_digits
    · rw [if_pos hc]
      by_cases hdg : isdigit (charAt line i) = true
      · have hip : i ≠ p := by
          intro h; rw [h, hnd] at hdg; exact absurd hdg (by decide)
        simp only [hdg, if_true]
        cases integer
        · obtain ⟨arg, j, hj, hij, hjp⟩ := ih
            (Arith.add res (Arith.mul (Arith.ofNat (digitVal (charAt line i)))
              (Arith.div fraction (Arith.ofNat 10))))
            (count + 1) false (Arith.div fraction (Arith.ofNat 10)) (i + 1) (by omega) (by omega)
          exact ⟨arg, j, by simpa using hj, by omega, hjp⟩
        · obtain ⟨arg, j, hj, hij, hjp⟩ := ih
            (Arith.add (Arith.mul res (Arith.ofNat 10)) (Arith.ofNat (digitVal (charAt line i))))
            (count + 1) true fraction (i + 1) (by omega) (by omega)
          exact ⟨arg, j, by simpa using hj, by omega, hjp⟩
      · simp only [hdg, Bool.false_eq_true, if_false]
        by_cases hd : charAt line i = '.'
        · have hip : i ≠ p := by
            intro h; rw [h] at hd; exact hdot hd
          obtain ⟨arg, j, hj, hij, hjp⟩ := ih res count false fraction (i + 1) (by omega)
            (by omega)
          exact ⟨arg, j, by simpa [hd] using hj, by omega, hjp⟩
        · simp only [hd, if_false]
          by_cases hsp : charAt line i = ' '
          · cases flag
            · exact ⟨Arith.ofNat 0, i, by simp [hsp, parse_arg_loop_stuck], le_refl i, h1⟩
            · exact ⟨res, i, by simp [hsp], le_refl i, h1⟩
          · exact ⟨Arith.ofNat 0, i, by simp [hsp, parse_arg_loop_stuck], le_refl i, h1⟩
    · rw [if_neg hc]
      by_cases hc2 : i < line.length ∨ count > max_decimal_digits
      · exact ⟨Arith.ofNat 0, i, by simp [hc2], le_refl i, h1⟩
      · exact ⟨res, i, by simp [hc2], le_refl i, h1⟩

/-- The call of `parse_arg` returns, and never moves the cursor onto or past a character that
is neither a digit nor `.`. -/
theorem parse_arg_bound {line : List Char} (flag : Bool) {p i : Nat}
    (hnd : isdigit (charAt line p) = false) (hdot : charAt line p ≠ '.')
    (hp : p < line.length) (hi : i ≤ p) :
    ∃ (arg : α) (j : Nat), parse_arg line i flag = some (arg, j) ∧ i ≤ j ∧ j ≤ p :=
  parse_arg_loop_bound line flag p hnd hdot (line.length + 2) _ 0 true _ i hi (by omega)

theorem countP_drop_pos {line : List Char} {i : Nat}
    (h : 0 < (line.drop i).countP isdigit) : i < line.length := by
  by_contra hh
  rw [List.drop_eq_nil_of_le (by omega)] at h
  simp at h

theorem countP_drop_succ {line : List Char} {i : Nat} (hi : i < line.length) :
    (line.drop i).countP isdigit
      = (if isdigit (charAt line i) = true then 1 else 0) + (line.drop (i + 1)).countP isdigit := by
  obtain ⟨c, t, hct⟩ : ∃ c t, line.drop i = c :: t := by
    rcases hd : line.drop i with _ | ⟨c, t⟩
    · have := drop_nil_le hd; omega
    · exact ⟨c, t, rfl⟩
  rw [drop_cons_charAt hct, drop_cons_succ hct, hct, List.countP_cons]
  omega

theorem parse_arg_loop_overflow (line : List Char) (flag : Bool) :
    ∀ (n : Nat) (res : α) (count : Nat) (integer : Bool) (fraction : α) (i : Nat),
      count ≤ max_decimal_digits →
      max_decimal_digits < count + (line.drop i).countP isdigit →
      line.length + 2 ≤ n + i →
      ∃ arg j, parse_arg_loop line flag n true res count integer fraction i = some (arg, j)
        ∧ i ≤ j ∧ j < line.length := by
  intro n
  induction n with
  | zero =>
    intro res count integer fraction i h1 h2 h3
    have := @countP_drop_pos line i (by omega)
    omega
  | succ n ih =>
    intro res count integer fraction i h1 h2 h3
    have hil : i < line.length := countP_drop_pos (by omega)
    obtain ⟨m, rfl⟩ : ∃ m, n = m + 1 := ⟨n - 1, by omega⟩
    have hcp := countP_drop_succ hil
    rw [parse_arg_loop]
    by_cases hc : count < max_decimal_digits
    · have hc' : true = true ∧ i < line.length ∧ count < max_decimal_digits := ⟨rfl, hil, hc⟩
      rw [if_pos hc']
      by_cases hdg : isdigit (charAt line i) = true
      · simp only [hdg, if_true] at hcp ⊢
        cases integer
        · obtain ⟨arg, j, hj, hij, hjp⟩ := ih
            (Arith.add res (Arith.mul (Arith.ofNat (digitVal (charAt line i)))
              (Arith.div fraction (Arith.ofNat 10))))
            (count + 1) false (Arith.div fraction (Arith.ofNat 10)) (i + 1) (by omega) (by omega)
            (by omega)
          exact ⟨arg, j, by simpa using hj, by omega, hjp⟩
        · obtain ⟨arg, j, hj, hij, hjp⟩ := ih
            (Arith.add (Arith.mul res (Arith.ofNat 10)) (Arith.ofNat (digitVal (charAt line i))))
            (count + 1) true fraction (i + 1) (by omega) (by omega) (by omega)
          exact ⟨arg, j, by simpa using hj, by omega, hjp⟩
      · simp only [hdg, Bool.false_eq_true, if_false] at hcp ⊢
        by_cases hd : charAt line i = '.'
        · obtain ⟨arg, j, hj, hij, hjp⟩ := ih res count false fraction (i + 1) h1 (by omega)
            (by omega)
          exact ⟨arg, j, by simpa [hd] using hj, by omega, hjp⟩
        · simp only [hd, if_false]
          by_cases hsp : charAt line i = ' '
          · cases flag
            · exact ⟨Arith.ofNat 0, i, by simp [hsp, parse_arg_loop_stuck], le_refl i, hil⟩
            · exact ⟨res, i, by simp [hsp], le_refl i, hil⟩
          · exact ⟨Arith.ofNat 0, i, by simp [hsp, parse_arg_loop_stuck], le_refl i, hil⟩
    · have hc' : ¬ (true = true ∧ i < line.length ∧ count < max_decimal_digits) := by
        intro h; exact hc h.2.2
      rw [if_neg hc']
      exact ⟨Arith.ofNat 0, i, by simp [hil], le_refl i, hil⟩

/-- The call of `parse_arg` returns with the cursor short of the end of the line when more
than 10 digits lie ahead. -/
theorem parse_arg_overflow {line : List Char} (flag : Bool) {i : Nat}
    (h : max_decimal_digits < (line.drop i).countP isdigit) :
    ∃ (arg : α) (j : Nat), parse_arg line i flag = some (arg, j) ∧ i ≤ j ∧ j < line.length :=
  parse_arg_loop_overflow line flag (line.length + 2) _ 0 true _ i (by simp [max_decimal_digits])
    (by omega) (by omega)

theorem parse_arg_at_end {line : List Char} (flag : Bool) {i : Nat} (h : line.length ≤ i) :
    parse_arg line i flag = some ((Arith.ofNat 0 : α), i) := by
  have h1 : ¬ i < line.length := by omega
  simp [parse_arg, parse_arg_loop, h1, max_decimal_digits]

/-! ## The argument loop on rejected lines -/

/-- In fold mode, a character that is neither a digit, nor `.`, nor whitespace
makes the loop return the snapshot from every state at or before it. -/
theorem arg_loop_fold_reject (line : List Char) (op : Op) (temp : α) (p : Nat)
    (hp : p < line.length) (hnd : isdigit (charAt line p) = false)
    (hns : isspace (charAt line p) = false) (hdot : charAt line p ≠ '.') :
    ∀ (n : Nat) (cur : α) (ok : Bool) (cnt i : Nat), i ≤ p → p + 1 ≤ n + i →
      arg_loop line true op temp n cur ok cnt i = some temp := by
  intro n
  induction n with
  | zero => intro cur ok cnt i h1 h2; omega
  | succ n ih =>
    intro cur ok cnt i h1 h2
    obtain ⟨j, hj, hij, hjp⟩ := skip_ws_bound hns hp h1
    obtain ⟨arg, k, hk, hjk, hkp⟩ := @parse_arg_bound α _ line true p j hnd hdot hp hjp
    have hil : i < line.length := by omega
    have hge : ¬ (cnt ≠ 0 ∧ j ≥ line.length) := by omega
    rw [arg_loop]
    simp only [hil, if_true, hj, hk, hge, if_false, Bool.true_eq_false, false_and]
    by_cases hkj : k = j
    · simp [hkj]
    · rw [if_neg hkj]
      split_ifs <;> first | rfl | exact ih _ _ _ k hkp (by omega)

/-- Outside fold mode, an argument that `parse_arg` does not consume to the end
of the line leaves the accumulator as it was on entry. -/
theorem arg_loop_nonfold_reject (line : List Char) (op : Op) (v : α) (n cnt i : Nat)
    (ws s : List Char) (h : line.drop i = ws ++ s) (hws : ∀ c ∈ ws, isspace c = true)
    (hhead : ∀ c, s.head? = some c → isspace c = false)
    (hbad : (∃ c ∈ s, isdigit c = false ∧ c ≠ '.') ∨ max_decimal_digits < s.countP isdigit) :
    arg_loop line false op v (n + 1) v true cnt i = some v := by
  have hskip := skip_ws_run h hws hhead
  have hj : line.drop (i + ws.length) = s := by
    rw [← List.drop_drop, h, List.drop_left]
  have hlen := drop_length_eq h
  have hparse : ∃ (arg : α) (k : Nat), parse_arg line (i + ws.length) false = some (arg, k)
      ∧ i + ws.length ≤ k ∧ k < line.length := by
    rcases hbad with ⟨c, hc, hcd, hcdot⟩ | hmany
    · obtain ⟨m, hm, hcm⟩ := charAt_of_mem hc
      have hcp : charAt line (i + ws.length + m) = c := by rw [charAt_drop, hj, hcm]
      have hp : i + ws.length + m < line.length := by omega
      obtain ⟨arg, k, hk, h1, h2⟩ := @parse_arg_bound α _ line false (i + ws.length + m)
        (i + ws.length) (by rw [hcp]; exact hcd) (by rw [hcp]; exact hcdot) hp (by omega)
      exact ⟨arg, k, hk, h1, by omega⟩
    · exact parse_arg_overflow false (by rw [hj]; exact hmany)
  obtain ⟨arg, k, hk, hjk, hkl⟩ := hparse
  have hil : i < line.length := by omega
  have hge : ¬ (cnt ≠ 0 ∧ i + ws.length ≥ line.length) := by omega
  rw [arg_loop]
  simp only [hil, if_true, hskip, hk, hge, if_false, hkl, and_self]
  split <;> rfl

/-- A line that holds only whitespace from the cursor on has no argument. -/
theorem arg_loop_blank (line : List Char) (isFold : Bool) (op : Op) (temp cur : α) (ok : Bool)
    (n i : Nat) (hi : i < line.length) (hws : ∀ c ∈ line.drop i, isspace c = true) :
    arg_loop line isFold op temp (n + 1) cur ok 0 i = some temp := by
  have hskip := @skip_ws_run line i (line.drop i) []
    (by simp) hws (by simp)
  have hend : i + (line.drop i).length = line.length := by
    rw [List.length_drop]; omega
  rw [hend] at hskip
  rw [arg_loop]
  simp [hi, hskip, parse_arg_at_end]

/-! ## The operator tokenizer on unrecognized lines -/

theorem charAt_cons_succ (c : Char) (t : List Char) (i : Nat) :
    charAt (c :: t) (i + 1) = charAt t i := by
  simp [charAt]

theorem charAt_zero_eq {line : List Char} {c : Char} (h : charAt line 0 = c) (hc : c ≠ '\x00') :
    ∃ t, line = c :: t := by
  rcases line with _ | ⟨d, t⟩
  · simp [charAt] at h; exact absurd h.symm hc
  · simp [charAt] at h; exact ⟨t, by rw [h]⟩

theorem parse_close_unrecognized {c0 c1 : Char} {l2 : List Char} {op : Op}
    (h : ∀ t, l2 ≠ ')' :: t) :
    (parse_close (c0 :: c1 :: l2) 2 op).1 = Op.ERR := by
  unfold parse_close
  split_ifs with h1
  · exfalso
    rw [charAt_cons_succ, charAt_cons_succ] at h1
    obtain ⟨t, ht⟩ := charAt_zero_eq h1 (by decide)
    exact h t ht
  · rfl

theorem parse_op_unrecognized {line : List Char} (h : ¬ startsWithOperator line) :
    (parse_op line 0).1 = Op.ERR := by
  rcases line with _ | ⟨c0, l1⟩
  · rfl
  have hd : isdigit c0 = false := by
    by_contra hh
    exact h (Or.inl ⟨c0, l1, rfl, Or.inl (by simpa using hh)⟩)
  have hsym : ¬ isBinarySymbol c0 := fun hh => h (Or.inl ⟨c0, l1, rfl, Or.inr (Or.inl hh)⟩)
  have hneg : ¬ c0 = '_' := fun hh => h (Or.inl ⟨c0, l1, rfl, Or.inr (Or.inr hh)⟩)
  simp only [isBinarySymbol, not_or] at hsym
  obtain ⟨hp, hm, ht, hdv, hr, hpw⟩ := hsym
  have hc0 : charAt (c0 :: l1) 0 = c0 := by simp [charAt]
  simp only [parse_op, hc0, hd, hp, hm, ht, hdv, hr, hpw, hneg, if_false, Bool.false_eq_true,
    Nat.zero_add, Nat.reduceAdd, charAt_cons_succ]
  by_cases hS : c0 = 'S'
  · subst hS
    simp only [if_true]
    split_ifs with h1 h2 h3 <;> try rfl
    exfalso
    obtain ⟨l2, rfl⟩ := charAt_zero_eq h1 (by decide)
    rw [charAt_cons_succ] at h2
    obtain ⟨l3, rfl⟩ := charAt_zero_eq h2 (by decide)
    rw [charAt_cons_succ, charAt_cons_succ] at h3
    obtain ⟨l4, rfl⟩ := charAt_zero_eq h3 (by decide)
    exact h (Or.inr (Or.inl ⟨l4, rfl⟩))
  · rw [if_neg hS]
    by_cases hP : c0 = '('
    · subst hP
      simp only [if_true]
      have key : ∀ s, isBinarySymbol s → charAt l1 0 = s → ∀ op,
          (parse_close ('(' :: l1) 2 op).1 = Op.ERR := by
        intro s hs h1 op
        obtain ⟨l2, rfl⟩ := charAt_zero_eq h1 hs.ne_nul
        exact parse_close_unrecognized (fun t ht => h (Or.inr (Or.inr ⟨s, t, hs, by rw [ht]⟩)))
      split_ifs with h1 h2 h3 h4 h5 h6
      · exact key _ (by simp [isBinarySymbol]) h1 _
      · exact key _ (by simp [isBinarySymbol]) h2 _
      · exact key _ (by simp [isBinarySymbol]) h3 _
      · exact key _ (by simp [isBinarySymbol]) h4 _
      · exact key _ (by simp [isBinarySymbol]) h5 _
      · exact key _ (by simp [isBinarySymbol]) h6 _
      · rfl
    · rw [if_neg hP]
      rfl

/-! ## The claims -/

/-- C1: fold evaluation is a left fold.  For every accumulator `v`, every symbol
`s` among `+ - * /` and every list of well-formed literals of fewer than 10
digits, each preceded by one or more spaces, `process_line v "(s) a1 ... an"`
returns `v` combined with `a1`, then `a2`, ..., then `an` by the operator (for
`/`, an argument equal to `0` leaves the running value unchanged and evaluation
continues). -/
theorem fold_evaluation_is_left_fold (v : α) (s : Char) (hs : isFieldSymbol s)
    (args : List (Nat × Literal))
    (hargs : ∀ a ∈ args, a.2.wellFormed ∧ a.2.digits < max_decimal_digits) :
    process_line v ('(' :: s :: ')' :: argsText args)
      = some (args.foldl (fun acc a => combine s acc (a.2.value : α)) v) := by
  rw [process_line, fold_flag_paren, process_line_core]
  simp only [parse_op_paren s _ hs.isBinarySymbol, arity_symbolOp s hs.isBinarySymbol, if_true]
  rcases args with _ | ⟨a, rest⟩
  · simp [argsText]
  · have hlen := argsText_length (a :: rest)
    have hl : ('(' :: s :: ')' :: argsText (a :: rest)).length
        = (argsText (a :: rest)).length + 3 := rfl
    simp only [List.length_cons] at hlen
    have hc : ¬ (('(' :: s :: ')' :: argsText (a :: rest)).length = 1
          ∧ isdigit (charAt ('(' :: s :: ')' :: argsText (a :: rest)) 3) = false
        ∨ ('(' :: s :: ')' :: argsText (a :: rest)).length > 1
          ∧ 3 = ('(' :: s :: ')' :: argsText (a :: rest)).length) := by
      rw [hl]; omega
    rw [if_neg hc, hl]
    exact arg_loop_fold _ s hs v (a :: rest) 3 v 0 _ (by simp) hargs
      (by simp only [List.length_cons]; omega)

/-- C3: bare binary application with guarded division.  For a well-formed literal
`x` of at most 10 digits with value `r`: `+x`, `-x`, `*x` return `v + r`, `v - r`,
`v * r`, and `/x` returns `v / r` when `r != 0` and `v` when `r == 0`. -/
theorem bare_binary_application (v : α) (x : Literal) (hx : x.wellFormed)
    (hd : x.digits ≤ max_decimal_digits) :
    process_line v ('+' :: x.text) = some (Arith.add v (x.value : α))
      ∧ process_line v ('-' :: x.text) = some (Arith.sub v (x.value : α))
      ∧ process_line v ('*' :: x.text) = some (Arith.mul v (x.value : α))
      ∧ process_line v ('/' :: x.text)
          = some (if Arith.isZero (x.value : α) then v else Arith.div v (x.value : α)) := by
  have hp := process_line_bare v '+' (by simp [isBinarySymbol]) [] (by simp) x hx hd
  have hm := process_line_bare v '-' (by simp [isBinarySymbol]) [] (by simp) x hx hd
  have ht := process_line_bare v '*' (by simp [isBinarySymbol]) [] (by simp) x hx hd
  have hq := process_line_bare v '/' (by simp [isBinarySymbol]) [] (by simp) x hx hd
  simp only [List.nil_append] at hp hm ht hq
  refine ⟨?_, ?_, ?_, ?_⟩
  · rw [hp]; simp [symbolOp, binary]
  · rw [hm]; simp [symbolOp, binary]
  · rw [ht]; simp [symbolOp, binary]
  · rw [hq]; simp [symbolOp, binary]

/-- C4 (the code at the failing inputs): a remainder line whose well-formed
literal starts with the digit `0` returns the accumulator unchanged, whatever the
literal's value; `fmod` is not applied. -/
theorem remainder_leading_zero_returns_snapshot (v : α) (x : Literal) (hx : x.wellFormed)
    (hd : x.digits ≤ max_decimal_digits) (h0 : x.ints.head? = some 0) :
    process_line v ('%' :: x.text) = some v := by
  have h := process_line_bare v '%' (by simp [isBinarySymbol]) [] (by simp) x hx hd
  simp only [List.nil_append] at h
  rw [h]
  simp [symbolOp, h0]

/-- C5: a fold-mode line with a non-numeric token has no effect.  For every `v`,
every symbol among `+ - * / % ^` and every remainder text holding a character
that is not a digit, not `.` and not whitespace, `process_line v "(s)t"` returns
`v`, however many valid arguments precede the character. -/
theorem fold_non_numeric_token_no_effect (v : α) (s : Char) (hs : isBinarySymbol s)
    (t : List Char) (hbad : ∃ c ∈ t, isdigit c = false ∧ c ≠ '.' ∧ isspace c = false) :
    process_line v ('(' :: s :: ')' :: t) = some v := by
  obtain ⟨c, hc, hcd, hcdot, hcs⟩ := hbad
  obtain ⟨m, hm, hcm⟩ := charAt_of_mem hc
  have hcp : charAt ('(' :: s :: ')' :: t) (3 + m) = c := by
    rw [charAt_drop]; simpa using hcm
  rw [process_line, fold_flag_paren, process_line_core]
  simp only [parse_op_paren s _ hs, arity_symbolOp s hs, if_true]
  have hl : ('(' :: s :: ')' :: t).length = t.length + 3 := rfl
  have hcond : ¬ (('(' :: s :: ')' :: t).length = 1
        ∧ isdigit (charAt ('(' :: s :: ')' :: t) 3) = false
      ∨ ('(' :: s :: ')' :: t).length > 1 ∧ 3 = ('(' :: s :: ')' :: t).length) := by
    rw [hl]; omega
  rw [if_neg hcond]
  exact arg_loop_fold_reject _ _ v (3 + m) (by rw [hl]; omega) (by rw [hcp]; exact hcd)
    (by rw [hcp]; exact hcs) (by rw [hcp]; exact hcdot) _ v true 0 3 (by omega)
    (by rw [hl]; omega)

/-- C6 (as stated, refuted): the argument text ` 5` of the bare line `+ 5`
contains a character other than a digit or `.` (its leading space), yet the line
is accepted: from `1` it returns `6`, not `1`. -/
theorem malformed_literal_leading_space_accepted :
    isBinarySymbol '+'
      ∧ (∃ c ∈ [' ', '5'], isdigit c = false ∧ c ≠ '.')
      ∧ process_line (1 : ℚ) ('+' :: [' ', '5']) = some 6
      ∧ process_line (1 : ℚ) ('+' :: [' ', '5']) ≠ some 1 := by
  have h := process_line_bare (1 : ℚ) '+' (by simp [isBinarySymbol]) [' ']
    (by intro c hc; rw [List.mem_singleton.mp hc]; decide) ⟨[5], none⟩
    ⟨by simp, by simp⟩ (by simp [Literal.digits, max_decimal_digits])
  have ht : ([' '] ++ (⟨[5], none⟩ : Literal).text) = [' ', '5'] := by decide
  rw [ht] at h
  have hn : decimalNat [5] = 5 := rfl
  have hv : process_line (1 : ℚ) ('+' :: [' ', '5']) = some 6 := by
    rw [h, Literal.value_rat]
    simp [symbolOp, binary, Literal.toRat, hn]
    norm_num
  refine ⟨by simp [isBinarySymbol], ⟨' ', by simp, by decide, by decide⟩, hv, ?_⟩
  rw [hv]
  simp

/-- C6 (amended): a malformed literal in non-fold form leaves the accumulator
unchanged.  For an implicit `Set` line starting with a digit, or a bare symbol
`+ - * / % ^` followed by argument text: when the argument text that remains
after its leading whitespace contains more than 10 digits or any character other
than a digit or `.`, `process_line` returns `v`. -/
theorem malformed_literal_rejected (v : α) (pre ws s : List Char)
    (hpre : (pre = [] ∧ ws = [] ∧ ∃ c t, s = c :: t ∧ isdigit c = true)
      ∨ ∃ sym, isBinarySymbol sym ∧ pre = [sym])
    (hws : ∀ c ∈ ws, isspace c = true)
    (hhead : ∀ c, s.head? = some c → isspace c = false)
    (hbad : (∃ c ∈ s, isdigit c = false ∧ c ≠ '.') ∨ max_decimal_digits < s.countP isdigit) :
    process_line v (pre ++ ws ++ s) = some v := by
  have hs : 0 < s.length := by
    rcases s with _ | ⟨c, t⟩
    · rcases hbad with ⟨c, hc, -⟩ | h
      · simp at hc
      · simp at h
    · simp
  rcases hpre with ⟨rfl, rfl, c, t, rfl, hc⟩ | ⟨sym, hsym, rfl⟩
  · simp only [List.nil_append]
    rw [process_line, fold_flag_of_ne c t (isdigit_ne_paren hc), process_line_core]
    have hc0 : charAt (c :: t) 0 = c := by simp [charAt]
    simp only [parse_op_digit c t hc, arity, if_true, hc0, hc]
    have hcond : ¬ ((c :: t).length = 1 ∧ true = false ∨ (c :: t).length > 1 ∧ 0 = (c :: t).length) := by
      simp
    rw [if_neg hcond]
    exact arg_loop_nonfold_reject _ _ v _ 0 0 [] (c :: t) (by simp) (by simp) hhead hbad
  · have hl : ([sym] ++ ws ++ s).length = ws.length + s.length + 1 := by
      simp only [List.length_append, List.length_singleton]; omega
    have hline : [sym] ++ ws ++ s = sym :: (ws ++ s) := by simp
    rw [process_line, hline, fold_flag_of_ne sym _ hsym.ne_paren, process_line_core]
    simp only [parse_op_bare sym _ hsym, arity_symbolOp sym hsym, if_true]
    rw [← hline]
    have hcond : ¬ (([sym] ++ ws ++ s).length = 1 ∧ isdigit (charAt ([sym] ++ ws ++ s) 1) = false
        ∨ ([sym] ++ ws ++ s).length > 1 ∧ 1 = ([sym] ++ ws ++ s).length) := by
      rw [hl]; omega
    rw [if_neg hcond]
    exact arg_loop_nonfold_reject _ _ v _ 0 1 ws s (by simp) hws hhead hbad

/-- C7: fold mode with exactly one argument is equivalent to the bare form.  For
every `v`, every symbol among `+ - * / % ^`, every run of whitespace and every
well-formed literal of at most 10 digits, `(s)` and `s` followed by the run and
the literal return the same value: one application of the operator, or `v` when
the operator is `%` and the literal starts with `0`. -/
theorem fold_single_argument_equals_bare (v : α) (s : Char) (hs : isBinarySymbol s)
    (ws : List Char) (hws : ∀ c ∈ ws, isspace c = true) (x : Literal) (hx : x.wellFormed)
    (hd : x.digits ≤ max_decimal_digits) :
    process_line v ('(' :: s :: ')' :: (ws ++ x.text)) = process_line v (s :: (ws ++ x.text))
      ∧ process_line v (s :: (ws ++ x.text))
          = some (if symbolOp s = Op.REM ∧ x.ints.head? = some 0 then v
                  else binary (symbolOp s) v (x.value : α)) := by
  rw [process_line_paren_single v s hs ws hws x hx hd, process_line_bare v s hs ws hws x hx hd]
  exact ⟨rfl, rfl⟩

/-- C8: square root is applied only to strictly positive values:
`process_line v "SQRT"` is `sqrt v` when `v > 0` and `v` otherwise. -/
theorem sqrt_only_strictly_positive (v : α) :
    process_line v ['S', 'Q', 'R', 'T']
      = some (if Arith.gt0 v = true then Arith.sqrt v else v) := by
  rfl

/-- C9: an unrecognized operator leaves the accumulator unchanged.  Every line
(the empty one included) that does not start with a digit, with one of
`+ - * / % ^ _`, with `SQRT`, or with `(` symbol `)`, returns `v`, whatever the
fold flag. -/
theorem unrecognized_operator_no_effect (v : α) (line : List Char)
    (h : ¬ startsWithOperator line) :
    process_line v line = some v ∧ ∀ isFold, process_line_core isFold v line = some v := by
  have hop := parse_op_unrecognized h
  have hcore : ∀ isFold, process_line_core isFold v line = some v := by
    intro isFold
    simp [process_line_core, hop, arity]
  exact ⟨hcore _, hcore⟩

/-- C10: a binary operator with no argument leaves the accumulator unchanged.  For
every `v`, every symbol among `+ - * / % ^`, bare or parenthesized, and every
suffix of zero or more whitespace characters, `process_line` returns `v`. -/
theorem binary_operator_without_argument (v : α) (s : Char) (hs : isBinarySymbol s)
    (w : List Char) (hw : ∀ c ∈ w, isspace c = true) :
    process_line v (s :: w) = some v ∧ process_line v ('(' :: s :: ')' :: w) = some v := by
  constructor
  · rw [process_line, fold_flag_of_ne s _ hs.ne_paren, process_line_core]
    simp only [parse_op_bare s _ hs, arity_symbolOp s hs, if_true]
    rcases w with _ | ⟨c, w⟩
    · have hcond : [s].length = 1 ∧ isdigit (charAt [s] 1) = false
          ∨ [s].length > 1 ∧ 1 = [s].length := Or.inl ⟨rfl, rfl⟩
      rw [if_pos hcond]
    · have hcond : ¬ ((s :: c :: w).length = 1 ∧ isdigit (charAt (s :: c :: w) 1) = false
          ∨ (s :: c :: w).length > 1 ∧ 1 = (s :: c :: w).length) := by
        simp
      rw [if_neg hcond]
      exact arg_loop_blank _ false _ v v true _ 1 (by simp) (by simpa using hw)
  · rw [process_line, fold_flag_paren, process_line_core]
    simp only [parse_op_paren s _ hs, arity_symbolOp s hs, if_true]
    rcases w with _ | ⟨c, w⟩
    · simp
    · have hcond : ¬ (('(' :: s :: ')' :: c :: w).length = 1
            ∧ isdigit (charAt ('(' :: s :: ')' :: c :: w) 3) = false
          ∨ ('(' :: s :: ')' :: c :: w).length > 1 ∧ 3 = ('(' :: s :: ')' :: c :: w).length) := by
        simp
      rw [if_neg hcond]
      exact arg_loop_blank _ true _ v v true _ 3 (by simp) (by simpa using hw)

/-! ## The claims at concrete inputs, in exact arithmetic -/

theorem fold_evaluation_is_left_fold_witness :
    process_line (1 : ℚ) "(+) 2 3 4".toList = some 10 := by
  have h := fold_evaluation_is_left_fold (1 : ℚ) '+' (Or.inl rfl)
    [(0, ⟨[2], none⟩), (0, ⟨[3], none⟩), (0, ⟨[4], none⟩)]
    (by simp [Literal.wellFormed, Literal.digits, max_decimal_digits])
  have ht : "(+) 2 3 4".toList
      = '(' :: '+' :: ')' :: argsText [(0, ⟨[2], none⟩), (0, ⟨[3], none⟩), (0, ⟨[4], none⟩)] := by
    decide
  have h2 : decimalNat [2] = 2 := rfl
  have h3 : decimalNat [3] = 3 := rfl
  have h4 : decimalNat [4] = 4 := rfl
  rw [ht, h]
  simp [combine, Literal.value_rat, Literal.toRat, h2, h3, h4]
  norm_num

theorem bare_binary_application_witness :
    process_line (10 : ℚ) "/0".toList = some 10 := by
  have h := (bare_binary_application (10 : ℚ) ⟨[0], none⟩ ⟨by simp, by simp⟩
    (by simp [Literal.digits, max_decimal_digits])).2.2.2
  have ht : "/0".toList = '/' :: (⟨[0], none⟩ : Literal).text := by decide
  have h0 : decimalNat [0] = 0 := rfl
  rw [ht, h]
  simp [Literal.value_rat, Literal.toRat, h0]

theorem remainder_leading_zero_returns_snapshot_witness :
    process_line (7 : ℚ) "%05".toList = some 7
      ∧ ((⟨[0, 5], none⟩ : Literal).value : ℚ) = 5
      ∧ Arith.fmod (7 : ℚ) 5 = 2 := by
  have h := remainder_leading_zero_returns_snapshot (7 : ℚ) ⟨[0, 5], none⟩ ⟨by simp, by simp⟩
    (by simp [Literal.digits, max_decimal_digits]) rfl
  have ht : "%05".toList = '%' :: (⟨[0, 5], none⟩ : Literal).text := by decide
  have h5 : decimalNat [0, 5] = 5 := rfl
  have hdiv : Int.tdiv 7 5 = 1 := rfl
  rw [ht]
  refine ⟨h, ?_, ?_⟩
  · simp [Literal.value_rat, Literal.toRat, h5]
  · simp only [ratArith_fmod, ratFmod]
    norm_num [hdiv]

theorem fold_non_numeric_token_no_effect_witness :
    process_line (1 : ℚ) "(+) 2 a 4".toList = some 1 :=
  fold_non_numeric_token_no_effect (1 : ℚ) '+' (Or.inl rfl) " 2 a 4".toList
    ⟨'a', by decide, by decide, by decide, by decide⟩

theorem malformed_literal_rejected_witness :
    process_line (0 : ℚ) "12345678901".toList = some 0
      ∧ process_line (3 : ℚ) "+5 ".toList = some 3 :=
  ⟨malformed_literal_rejected (0 : ℚ) [] [] "12345678901".toList
      (Or.inl ⟨rfl, rfl, '1', "2345678901".toList, rfl, rfl⟩) (by simp)
      (by intro c hc; cases hc; decide) (Or.inr (by decide)),
   malformed_literal_rejected (3 : ℚ) ['+'] [] "5 ".toList
      (Or.inr ⟨'+', Or.inl rfl, rfl⟩) (by simp)
      (by intro c hc; cases hc; decide) (Or.inl ⟨' ', by decide, by decide, by decide⟩)⟩

theorem fold_single_argument_equals_bare_witness :
    process_line (3 : ℚ) "(*) 2.5".toList = process_line (3 : ℚ) "* 2.5".toList
      ∧ process_line (3 : ℚ) "* 2.5".toList = some (15 / 2) := by
  have h := fold_single_argument_equals_bare (3 : ℚ) '*' (Or.inr (Or.inr (Or.inl rfl))) [' ']
    (by intro c hc; rw [List.mem_singleton.mp hc]; decide) ⟨[2], some [5]⟩ ⟨by simp, by simp⟩
    (by simp [Literal.digits, max_decimal_digits])
  have ht1 : "(*) 2.5".toList = '(' :: '*' :: ')' :: ([' '] ++ (⟨[2], some [5]⟩ : Literal).text) := by
    decide
  have ht2 : "* 2.5".toList = '*' :: ([' '] ++ (⟨[2], some [5]⟩ : Literal).text) := by decide
  have h2 : decimalNat [2] = 2 := rfl
  have h5 : decimalNat [5] = 5 := rfl
  rw [ht1, ht2]
  refine ⟨h.1, ?_⟩
  rw [h.2]
  simp [symbolOp, binary, Literal.value_rat, Literal.toRat, h2, h5]
  norm_num

theorem sqrt_only_strictly_positive_witness :
    process_line (4 : ℚ) "SQRT".toList = some 2
      ∧ process_line (-4 : ℚ) "SQRT".toList = some (-4)
      ∧ process_line (0 : ℚ) "SQRT".toList = some 0 := by
  have hs : Nat.sqrt 4 = 2 := by
    rw [show (4 : ℕ) = 2 * 2 from rfl, Nat.sqrt_eq]
  have ht : "SQRT".toList = ['S', 'Q', 'R', 'T'] := rfl
  rw [ht]
  refine ⟨?_, ?_, ?_⟩
  · rw [sqrt_only_strictly_positive]; simp [hs]
  · rw [sqrt_only_strictly_positive]; simp
  · rw [sqrt_only_strictly_positive]; simp

theorem unrecognized_operator_no_effect_witness :
    process_line (3 : ℚ) [] = some 3 ∧ process_line (3 : ℚ) "(+5".toList = some 3
      ∧ process_line (3 : ℚ) "SQR".toList = some 3 := by
  refine ⟨(unrecognized_operator_no_effect (3 : ℚ) [] ?_).1,
    (unrecognized_operator_no_effect (3 : ℚ) "(+5".toList ?_).1,
    (unrecognized_operator_no_effect (3 : ℚ) "SQR".toList ?_).1⟩
  · simp [startsWithOperator]
  · have ht : "(+5".toList = ['(', '+', '5'] := rfl
    rw [ht]
    simp [startsWithOperator, isBinarySymbol]
    decide
  · have ht : "SQR".toList = ['S', 'Q', 'R'] := rfl
    rw [ht]
    simp [startsWithOperator, isBinarySymbol]
    decide

theorem binary_operator_without_argument_witness :
    process_line (3 : ℚ) "+".toList = some 3 ∧ process_line (3 : ℚ) "(+) \t".toList = some 3 :=
  ⟨(binary_operator_without_argument (3 : ℚ) '+' (Or.inl rfl) [] (by simp)).1,
   (binary_operator_without_argument (3 : ℚ) '+' (Or.inl rfl) [' ', '\t']
      (by intro c hc; simp at hc; rcases hc with rfl | rfl <;> decide)).2⟩

end Scanner

section Totality
variable {α : Type} [Arith α]

/-! ## Termination and preserved properties -/

theorem skip_ws_loop_total (line : List Char) :
    ∀ (n i : Nat), 1 ≤ n → line.length + 1 ≤ n + i →
      ∃ j, skip_ws_loop line n i = some j ∧ i ≤ j ∧ (i ≤ line.length → j ≤ line.length) := by
  intro n
  induction n with
  | zero => intro i h1 _; omega
  | succ n ih =>
    intro i _ h2
    rw [skip_ws_loop]
    by_cases hc : i < line.length ∧ isspace (charAt line i) = true
    · obtain ⟨j, hj, hij, hjl⟩ := ih (i + 1) (by omega) (by omega)
      exact ⟨j, by rw [if_pos hc, hj], by omega, fun _ => hjl (by omega)⟩
    · exact ⟨i, by rw [if_neg hc], le_refl i, fun h => h⟩

/-- The loop of `skip_ws` returns within its `line.size() + 1` steps, and the
cursor only moves forward, never past the end of the line. -/
theorem skip_ws_total (line : List Char) (i : Nat) :
    ∃ j, skip_ws line i = some j ∧ i ≤ j ∧ (i ≤ line.length → j ≤ line.length) :=
  skip_ws_loop_total line (line.length + 1) i (by omega) (by omega)

theorem parse_arg_loop_total (line : List Char) (flag : Bool) (P : α → Prop) (hP : Closed P) :
    ∀ (n : Nat) (good : Bool) (res : α) (count : Nat) (integer : Bool) (fraction : α) (i : Nat),
      P res → P fraction → 1 ≤ n → (good = true → line.length + 2 ≤ n + i) →
      ∃ arg j, parse_arg_loop line flag n good res count integer fraction i = some (arg, j)
        ∧ P arg ∧ i ≤ j ∧ (i ≤ line.length → j ≤ line.length) := by
  intro n
  induction n with
  | zero => intro good res count integer fraction i _ _ h1 _; omega
  | succ n ih =>
    intro good res count integer fraction i hres hfr _ hfuel
    rw [parse_arg_loop]
    by_cases hc : good = true ∧ i < line.length ∧ count < max_decimal_digits
    · have hg : good = true := hc.1
      subst hg
      have hn := hfuel rfl
      rw [if_pos hc]
      have hstuck : ∀ (r : α), P r →
          ∃ arg j, parse_arg_loop line flag n false r count integer fraction i = some (arg, j)
            ∧ P arg ∧ i ≤ j ∧ (i ≤ line.length → j ≤ line.length) := by
        intro r _
        obtain ⟨m, rfl⟩ : ∃ m, n = m + 1 := ⟨n - 1, by omega⟩
        exact ⟨Arith.ofNat 0, i, parse_arg_loop_stuck _ _ _ _ _ _ _ _, hP.ofNat 0, le_refl i,
          fun h => h⟩
      by_cases hdg : isdigit (charAt line i) = true
      · simp only [hdg, if_true]
        cases integer
        · obtain ⟨arg, j, hj, hparg, hij, hjl⟩ := ih true
            (Arith.add res (Arith.mul (Arith.ofNat (digitVal (charAt line i)))
              (Arith.div fraction (Arith.ofNat 10))))
            (count + 1) false (Arith.div fraction (Arith.ofNat 10)) (i + 1)
            (hP.add _ _ hres (hP.mul _ _ (hP.ofNat _) (hP.tenth _ hfr))) (hP.tenth _ hfr)
            (by omega) (by intro _; omega)
          exact ⟨arg, j, by simpa using hj, hparg, by omega, fun _ => hjl (by omega)⟩
        · obtain ⟨arg, j, hj, hparg, hij, hjl⟩ := ih true
            (Arith.add (Arith.mul res (Arith.ofNat 10)) (Arith.ofNat (digitVal (charAt line i))))
            (count + 1) true fraction (i + 1)
            (hP.add _ _ (hP.mul _ _ hres (hP.ofNat _)) (hP.ofNat _)) hfr
            (by omega) (by intro _; omega)
          exact ⟨arg, j, by simpa using hj, hparg, by omega, fun _ => hjl (by omega)⟩
      · simp only [hdg, Bool.false_eq_true, if_false]
        by_cases hd : charAt line i = '.'
        · obtain ⟨arg, j, hj, hparg, hij, hjl⟩ := ih true res count false fraction (i + 1)
            hres hfr (by omega) (by intro _; omega)
          exact ⟨arg, j, by simpa [hd] using hj, hparg, by omega, fun _ => hjl (by omega)⟩
        · simp only [hd, if_false]
          by_cases hsp : charAt line i = ' '
          · cases flag
            · simpa [hsp] using hstuck res hres
            · exact ⟨res, i, by simp [hsp], hres, le_refl i, fun h => h⟩
          · simpa [hsp] using hstuck res hres
    · rw [if_neg hc]
      by_cases hg : good = false
      · exact ⟨Arith.ofNat 0, i, by simp [hg], hP.ofNat 0, le_refl i, fun h => h⟩
      · by_cases hc2 : i < line.length ∨ count > max_decimal_digits
        · exact ⟨Arith.ofNat 0, i, by simp [hg, hc2], hP.ofNat 0, le_refl i, fun h => h⟩
        · exact ⟨res, i, by simp [hg, hc2], hres, le_refl i, fun h => h⟩

/-- The scan of `parse_arg` returns within its fuel; the cursor only moves
forward, never past the end of the line, and the value returned has every
property the arithmetic preserves. -/
theorem parse_arg_total (line : List Char) (flag : Bool) (i : Nat) (P : α → Prop)
    (hP : Closed P) :
    ∃ (arg : α) (j : Nat), parse_arg line i flag = some (arg, j) ∧ P arg ∧ i ≤ j
      ∧ (i ≤ line.length → j ≤ line.length) :=
  parse_arg_loop_total line flag P hP (line.length + 2) true _ 0 true _ i (hP.ofNat 0)
    (hP.ofNat 1) (by omega) (by intro _; omega)

theorem binary_closed (P : α → Prop) (hP : Closed P) (op : Op) (left right : α)
    (hl : P left) (hr : P right) : P (binary op left right) := by
  cases op <;> simp only [binary]
  all_goals first
    | exact hl
    | exact hr
    | exact hP.add _ _ hl hr
    | exact hP.sub _ _ hl hr
    | exact hP.mul _ _ hl hr
    | exact hP.pow _ _ hl hr
    | skip
  · by_cases hz : Arith.isZero right = true
    · simpa [hz] using hl
    · simpa [hz] using hP.div _ _ hl hr (by simpa using hz)
  · by_cases hz : Arith.isZero right = true
    · simpa [hz] using hl
    · simpa [hz] using hP.fmod _ _ hl hr (by simpa using hz)

theorem unary_closed (P : α → Prop) (hP : Closed P) (op : Op) (current : α)
    (hc : P current) : P (unary current op) := by
  cases op <;> simp only [unary]
  all_goals first
    | exact hc
    | exact hP.neg _ hc
    | skip
  by_cases hg : Arith.gt0 current = true
  · simpa [hg] using hP.sqrt _ hc hg
  · simpa [hg] using hc

theorem arg_loop_total (line : List Char) (isFold : Bool) (op : Op) (temp : α) (P : α → Prop)
    (hP : Closed P) (htemp : P temp) :
    ∀ (n : Nat) (cur : α) (ok : Bool) (cnt i : Nat), P cur → 1 ≤ n → line.length + 1 ≤ n + i →
      ∃ r, arg_loop line isFold op temp n cur ok cnt i = some r ∧ P r := by
  intro n
  induction n with
  | zero => intro cur ok cnt i _ h1 _; omega
  | succ n ih =>
    intro cur ok cnt i hcur _ hfuel
    rw [arg_loop]
    by_cases hil : i < line.length
    · obtain ⟨j, hj, hij, -⟩ := skip_ws_total line i
      obtain ⟨arg, k, hk, hparg, hjk, -⟩ := @parse_arg_total α _ line isFold j P hP
      simp only [hil, if_true, hj, hk]
      split_ifs <;> first
        | exact ⟨cur, rfl, hcur⟩
        | exact ⟨temp, rfl, htemp⟩
        | exact ih _ _ _ k (binary_closed P hP op cur arg hcur hparg) (by omega) (by omega)
    · exact ⟨cur, by simp [hil], hcur⟩

/-- Every run of `process_line` returns, and every property of the accumulator
that the arithmetic preserves holds of the value returned. -/
theorem process_line_core_total (isFold : Bool) (v : α) (line : List Char) (P : α → Prop)
    (hP : Closed P) (hv : P v) :
    ∃ r, process_line_core isFold v line = some r ∧ P r := by
  rw [process_line_core]
  split_ifs <;> first
    | exact ⟨v, rfl, hv⟩
    | exact arg_loop_total line isFold _ v P hP hv _ v true 0 _ hv (by omega) (by omega)
    | exact ⟨_, rfl, unary_closed P hP _ v hv⟩

theorem closed_true : Closed (fun _ : α => True) :=
  ⟨fun _ => trivial, fun _ _ _ _ => trivial, fun _ _ _ _ => trivial, fun _ _ _ _ => trivial,
   fun _ _ _ _ => trivial, fun _ _ => trivial, fun _ _ _ _ _ => trivial,
   fun _ _ _ _ _ => trivial, fun _ _ _ => trivial, fun _ _ => trivial⟩

end Totality

section Robust
variable {α : Type} [Arith α]

/-- C11: a unary operator followed by anything is rejected.  For every `v` and
every non-empty text `t` (whitespace included), `process_line v "_t"` and
`process_line v "SQRTt"` return `v`; without a suffix the unary operator is
applied to `v`. -/
theorem unary_with_suffix_rejected (v : α) (t : List Char) (ht : t ≠ []) :
    process_line v ('_' :: t) = some v
      ∧ process_line v ('S' :: 'Q' :: 'R' :: 'T' :: t) = some v
      ∧ process_line v ['_'] = some (Arith.neg v)
      ∧ process_line v ['S', 'Q', 'R', 'T']
          = some (if Arith.gt0 v = true then Arith.sqrt v else v) := by
  have hl : 0 < t.length := List.length_pos.mpr ht
  refine ⟨?_, ?_, rfl, rfl⟩
  · have hop : parse_op ('_' :: t) 0 = (Op.NEG, 1) := rfl
    rw [process_line, fold_flag_of_ne _ _ (by decide), process_line_core]
    simp only [hop, arity, List.length_cons]
    have h1 : 1 < t.length + 1 := by omega
    simp [h1]
  · have hop : parse_op ('S' :: 'Q' :: 'R' :: 'T' :: t) 0 = (Op.SQRT, 4) := rfl
    rw [process_line, fold_flag_of_ne _ _ (by decide), process_line_core]
    simp only [hop, arity, List.length_cons]
    have h1 : 4 < t.length + 1 + 1 + 1 + 1 := by omega
    simp [h1]

end Robust

theorem unary_with_suffix_rejected_witness :
    process_line (3 : ℚ) "_ ".toList = some 3 ∧ process_line (3 : ℚ) "SQRT2".toList = some 3
      ∧ process_line (3 : ℚ) "_".toList = some (-3) := by
  have h1 := unary_with_suffix_rejected (3 : ℚ) [' '] (by simp)
  have h2 := unary_with_suffix_rejected (3 : ℚ) ['2'] (by simp)
  exact ⟨h1.1, h2.2.1, by simpa using h1.2.2.1⟩

section Robust2
variable {α : Type} [Arith α]

/-- C18 (the code on every failing line): when `parse_op`, started at cursor 0,
returns `ERR`, it leaves the cursor at 0 unless the line starts with `(`, in
which case it leaves the cursor at 1. -/
theorem parse_op_failure_cursor (line : List Char) (h : (parse_op line 0).1 = Op.ERR) :
    (parse_op line 0).2 = if charAt line 0 = '(' then 1 else 0 := by
  by_cases hp : charAt line 0 = '('
  · rw [if_pos hp]
    have hd : isdigit '(' = false := by decide
    simp only [parse_op, hp, hd, parse_close, rollback] at h ⊢
    simp only [Char.reduceEq, if_false, if_true, Bool.false_eq_true] at h ⊢
    split_ifs at h ⊢ <;> rfl
  · rw [if_neg hp]
    by_cases hd : isdigit (charAt line 0) = true
    · simp [parse_op, hd] at h
    by_cases h1 : charAt line 0 = '+'
    · simp [parse_op, h1, isdigit] at h
    by_cases h2 : charAt line 0 = '-'
    · simp [parse_op, h2, isdigit] at h
    by_cases h3 : charAt line 0 = '*'
    · simp [parse_op, h3, isdigit] at h
    by_cases h4 : charAt line 0 = '/'
    · simp [parse_op, h4, isdigit] at h
    by_cases h5 : charAt line 0 = '%'
    · simp [parse_op, h5, isdigit] at h
    by_cases h6 : charAt line 0 = '_'
    · simp [parse_op, h6, isdigit] at h
    by_cases h7 : charAt line 0 = '^'
    · simp [parse_op, h7, isdigit] at h
    have hd' : isdigit (charAt line 0) = false := by simpa using hd
    simp only [parse_op, hd', h1, h2, h3, h4, h5, h6, h7, hp, rollback, Bool.false_eq_true,
      if_false]
    by_cases h8 : charAt line 0 = 'S'
    · simp only [h8, if_true]
      split_ifs <;> first | rfl | skip
      rename_i hq hr ht
      simp [parse_op, h8, hq, hr, ht, isdigit] at h
    · simp only [h8, if_false]

end Robust2

/-- C14 (the code at the failing input): in fold mode the 10-digit literal
`1234567890` followed by a space contributes `0`, so `(+) 1234567890 5` from `0`
returns `5`; the same literal at the end of the line contributes its value. -/
theorem ten_digit_literal_before_space_is_lost :
    process_line (0 : ℚ) "(+) 1234567890 5".toList = some 5
      ∧ process_line (0 : ℚ) "(+) 1234567890".toList = some 1234567890 := by
  have h1 : process_line (0 : ℚ) "(+) 1234567890 5".toList
      = some (Arith.add (Arith.add 0 (Arith.ofNat 0)) (Literal.value ⟨[5], none⟩)) := rfl
  have h2 : process_line (0 : ℚ) "(+) 1234567890".toList
      = some (Arith.add 0 (Literal.value ⟨[1, 2, 3, 4, 5, 6, 7, 8, 9, 0], none⟩)) := rfl
  have n1 : decimalNat [5] = 5 := rfl
  have n2 : decimalNat [1, 2, 3, 4, 5, 6, 7, 8, 9, 0] = 1234567890 := rfl
  rw [h1, h2, Literal.value_rat, Literal.value_rat]
  constructor
  · simp [Literal.toRat, n1]
  · simp [Literal.toRat, n2]

/-- C15 (the code at the failing input): in fold mode the 11-digit literal
`12345678901` is not rejected: its first 10 digits contribute `0`, the last
digit is parsed as a further argument, and the line returns `1` from `0`. -/
theorem eleven_digit_literal_in_fold_mode_is_applied :
    process_line (0 : ℚ) "(+)12345678901".toList = some 1 := by
  have h1 : process_line (0 : ℚ) "(+)12345678901".toList
      = some (Arith.add (Arith.add 0 (Arith.ofNat 0)) (Literal.value ⟨[1], none⟩)) := rfl
  have n1 : decimalNat [1] = 1 := rfl
  rw [h1, Literal.value_rat]
  simp [Literal.toRat, n1]

/-- C17 (the code at the failing input): a tab after an argument is not a
separator for `parse_arg`: the argument before it contributes `0`, so
`(+) 2<TAB>3` from `1` returns `4`, while `(+) 2 3` returns `6`. -/
theorem tab_separated_argument_is_lost :
    process_line (1 : ℚ) "(+) 2\t3".toList = some 4
      ∧ process_line (1 : ℚ) "(+) 2 3".toList = some 6 := by
  have h1 : process_line (1 : ℚ) "(+) 2\t3".toList
      = some (Arith.add (Arith.add 1 (Arith.ofNat 0)) (Literal.value ⟨[3], none⟩)) := rfl
  have h2 : process_line (1 : ℚ) "(+) 2 3".toList
      = some (Arith.add (Arith.add 1 (Literal.value ⟨[2], none⟩)) (Literal.value ⟨[3], none⟩)) :=
    rfl
  have n2 : decimalNat [2] = 2 := rfl
  have n3 : decimalNat [3] = 3 := rfl
  rw [h1, h2, Literal.value_rat, Literal.value_rat]
  constructor
  · simp [Literal.toRat, n3]; norm_num
  · simp [Literal.toRat, n2, n3]; norm_num

theorem parse_op_failure_cursor_witness :
    parse_op "(+x".toList 0 = (Op.ERR, 1) ∧ parse_op "(x".toList 0 = (Op.ERR, 1)
      ∧ parse_op "SQRx".toList 0 = (Op.ERR, 0) := by
  have h1 := parse_op_failure_cursor "(+x".toList rfl
  have h2 := parse_op_failure_cursor "(x".toList rfl
  have h3 := parse_op_failure_cursor "SQRx".toList rfl
  exact ⟨Prod.ext rfl h1, Prod.ext rfl h2, Prod.ext rfl h3⟩

section Robust3
variable {α : Type} [Arith α]

/-! ## Literals with several decimal points -/

theorem fracValueFrom_append (g h : List (Fin 10)) :
    ∀ (k : Nat) (res : α),
      fracValueFrom k res (g ++ h) = fracValueFrom (k + g.length) (fracValueFrom k res g) h := by
  induction g with
  | nil => intro k res; simp [fracValueFrom]
  | cons d g ih =>
    intro k res
    have hk : k + (d :: g).length = k + 1 + g.length := by simp; omega
    show fracValueFrom (k + 1) _ (g ++ h) = _
    rw [ih, hk]
    rfl

theorem parse_arg_loop_groups (line : List Char) (flag : Bool) (n : Nat) (rest : List Char) :
    ∀ (groups : List (List (Fin 10))) (i : Nat) (res : α) (count k : Nat) (b : Bool),
      line.drop i = groupsText groups ++ rest →
      count + (groupsDigits groups).length ≤ max_decimal_digits →
      (∀ g ∈ groups, g ≠ []) →
      ∃ b', parse_arg_loop line flag ((groupsText groups).length + n) true res count b (weight k) i
        = parse_arg_loop line flag n true (fracValueFrom k res (groupsDigits groups))
            (count + (groupsDigits groups).length) b' (weight (k + (groupsDigits groups).length))
            (i + (groupsText groups).length) := by
  intro groups
  induction groups with
  | nil => intro i res count k b _ _ _; exact ⟨b, by simp [groupsText, groupsDigits, fracValueFrom]⟩
  | cons g gs ih =>
    intro i res count k b h hcount hne
    have hg : 0 < g.length := List.length_pos.mpr (hne g (by simp))
    have h' : line.drop i = '.' :: (digitsText g ++ (groupsText gs ++ rest)) := by
      simpa [groupsText] using h
    have hlt := drop_cons_lt h'
    have hc := drop_cons_charAt h'
    have hnext := drop_cons_succ h'
    have hlen : (groupsDigits (g :: gs)).length = g.length + (groupsDigits gs).length := by
      simp [groupsDigits]
    have htl : (groupsText (g :: gs)).length = g.length + (groupsText gs).length + 1 := by
      simp [groupsText, digitsText]
    have hcnt : count < max_decimal_digits := by omega
    have hfuel : (groupsText (g :: gs)).length + n
        = (g.length + ((groupsText gs).length + n)) + 1 := by omega
    have hnd : isdigit '.' = false := by decide
    rw [hfuel, parse_arg_loop]
    simp only [hlt, hc, hnd, hcnt, and_self, if_true, Bool.false_eq_true, if_false]
    rw [parse_arg_loop_fracs line flag _ (groupsText gs ++ rest) g (i + 1) res count k hnext
      (by omega)]
    have hnext2 : line.drop (i + 1 + g.length) = groupsText gs ++ rest := by
      rw [← List.drop_drop, hnext]
      exact List.drop_left' (by simp [digitsText])
    obtain ⟨b', hb'⟩ := ih (i + 1 + g.length) (fracValueFrom k res g) (count + g.length)
      (k + g.length) false hnext2 (by omega) (fun g' hg' => hne g' (by simp [hg']))
    refine ⟨b', ?_⟩
    rw [hb']
    have hv : fracValueFrom (k + g.length) (fracValueFrom k res g) (groupsDigits gs)
        = fracValueFrom k res (groupsDigits (g :: gs)) := by
      simp only [groupsDigits]
      exact (fracValueFrom_append g (groupsDigits gs) k res).symm
    rw [hv, hlen, htl]
    congr 1 <;> first | omega | (congr 1; omega)

/-- A run of digits followed by groups of `.` and digits, of at most 10 digits in
all and ending the line, is parsed to the value of the literal whose fractional
part is all the groups together: every `.` after the first is consumed and
changes nothing. -/
theorem parse_arg_dotted_end {line : List Char} {i : Nat} (flag : Bool)
    (ints : List (Fin 10)) (groups : List (List (Fin 10)))
    (h : line.drop i = digitsText ints ++ groupsText groups) (hi : i ≤ line.length)
    (hne : ∀ g ∈ groups, g ≠ [])
    (hd : ints.length + (groupsDigits groups).length ≤ max_decimal_digits) :
    parse_arg line i flag
      = some ((Literal.value ⟨ints, some (groupsDigits groups)⟩ : α), line.length) := by
  have hil : (digitsText ints).length = ints.length := by simp [digitsText]
  have hlen : ints.length + (groupsText groups).length + i = line.length := by
    have := drop_length_eq h
    rw [hil] at this
    omega
  have h1 : line.drop i = digitsText ints ++ (groupsText groups ++ []) := by simpa using h
  have h2 : line.drop (i + ints.length) = groupsText groups ++ [] := by
    rw [← List.drop_drop, h1]
    exact List.drop_left' hil
  obtain ⟨b', hb'⟩ := @parse_arg_loop_groups α _ line flag
    ((line.length - ints.length - (groupsText groups).length + 1) + 1) [] groups
    (i + ints.length) (intValueFrom (Arith.ofNat 0) ints) (0 + ints.length) 0 true h2
    (by omega) hne
  have hfuel : line.length + 2 = ints.length + ((groupsText groups).length
      + ((line.length - ints.length - (groupsText groups).length + 1) + 1)) := by
    omega
  have hend : i + ints.length + (groupsText groups).length = line.length := by
    omega
  have hw : (Arith.ofNat 1 : α) = weight 0 := rfl
  rw [parse_arg, hfuel, parse_arg_loop_ints line flag _ _ _ ints i _ 0 h1 (by omega), hw, hb',
    hend, parse_arg_loop]
  have h10 : ¬ (max_decimal_digits < ints.length + (groupsDigits groups).length) := by omega
  simp [h10, Literal.value]

/-- The argument loop on one argument that starts with a digit, that whitespace
may precede and that `parse_arg` consumes to the end of the line with value `r`. -/
theorem arg_loop_single_parsed (line : List Char) (isFold : Bool) (op : Op) (temp cur : α)
    (n cnt i : Nat) (ws : List Char) (d : Fin 10) (t : List Char) (r : α)
    (h : line.drop i = ws ++ digitChar d :: t) (hws : ∀ c ∈ ws, isspace c = true)
    (hparse : parse_arg line (i + ws.length) isFold = some (r, line.length)) :
    arg_loop line isFold op temp (n + 2) cur true cnt i
      = some (if op = Op.REM ∧ d = 0 then temp else binary op cur r) := by
  have hlen := drop_length_eq h
  have hil : i < line.length := by simp at hlen; omega
  have hskip : skip_ws line i = some (i + ws.length) := by
    apply skip_ws_run h hws
    intro c hc
    simp at hc
    rw [← hc]; exact isspace_digitChar d
  have hj : line.drop (i + ws.length) = digitChar d :: t := by
    rw [← List.drop_drop, h, List.drop_left]
  have hjc : charAt line (i + ws.length) = digitChar d := drop_cons_charAt hj
  have hjl : i + ws.length < line.length := drop_cons_lt hj
  rw [arg_loop]
  simp only [hil, if_true, hskip, hparse, hjc, isdigit_digitChar]
  have hne : ¬ (line.length = i + ws.length) := by omega
  have hge : ¬ (i + ws.length ≥ line.length) := by omega
  simp only [hne, hge, and_false, if_false, lt_self_iff_false, Bool.not_true, Bool.false_and,
    Bool.false_or, digitChar_eq_zero_iff]
  by_cases hrem : op = Op.REM
  · by_cases hz : d = 0
    · simp [hrem, hz]
    · simp [hrem, hz, arg_loop]
  · simp [hrem, arg_loop]

end Robust3

section Robust4
variable {α : Type} [Arith α]

/-- One iteration of the argument loop either returns, whatever fuel is left, or
goes on from a strictly greater cursor. -/
theorem arg_loop_step (line : List Char) (isFold : Bool) (op : Op) (temp cur : α) (ok : Bool)
    (cnt i : Nat) :
    (∃ r, ∀ m, arg_loop line isFold op temp (m + 1) cur ok cnt i = some r)
      ∨ (∃ cur' ok' i', i < i' ∧ ∀ m, arg_loop line isFold op temp (m + 1) cur ok cnt i
            = arg_loop line isFold op temp m cur' ok' (cnt + 1) i') := by
  by_cases hil : i < line.length
  · obtain ⟨j, hj, hij, -⟩ := skip_ws_total line i
    obtain ⟨arg, k, hk, -, hjk, -⟩ := @parse_arg_total α _ line isFold j (fun _ => True)
      closed_true
    by_cases h1 : cnt ≠ 0 ∧ j ≥ line.length
    · exact Or.inl ⟨cur, fun m => by rw [arg_loop]; simp only [hil, if_true, hj]; rw [if_pos h1]⟩
    by_cases h2 : k = j
    · exact Or.inl ⟨temp, fun m => by
        rw [arg_loop]; simp only [hil, if_true, hj, hk]; rw [if_neg h1, if_pos h2]⟩
    by_cases h3 : isFold = false ∧ k < line.length
    · exact Or.inl ⟨cur, fun m => by
        rw [arg_loop]; simp only [hil, if_true, hj, hk]; rw [if_neg h1, if_neg h2, if_pos h3]⟩
    by_cases h4 : (if (!isdigit (charAt line j) && !isspace (charAt line j) && isFold
                  && decide (charAt line j ≠ '.'))
                || (decide (op = Op.REM) && decide (charAt line j = '0'))
            then false else ok) = true
    · exact Or.inr ⟨binary op cur arg, _, k, by omega, fun m => by
        rw [arg_loop]; simp only [hil, if_true, hj, hk]
        rw [if_neg h1, if_neg h2, if_neg h3, if_pos h4]⟩
    · exact Or.inl ⟨temp, fun m => by
        rw [arg_loop]; simp only [hil, if_true, hj, hk]
        rw [if_neg h1, if_neg h2, if_neg h3, if_neg h4]⟩
  · exact Or.inl ⟨cur, fun m => by rw [arg_loop]; simp only [hil, if_false]⟩

/-- C19: `process_line` terminates on every accumulator and every line.  The
scans of `skip_ws` and `parse_arg` return with the cursor not moved back; every
iteration of the argument loop returns or leaves the cursor strictly greater; so
from cursor `i` the loop returns within `line.size() - i` iterations and the exit
test after them, and `process_line` returns a value. -/
theorem process_line_terminates (v : α) (line : List Char) :
    (∃ r, process_line v line = some r)
      ∧ (∀ i, ∃ j, skip_ws line i = some j ∧ i ≤ j)
      ∧ (∀ flag i, ∃ (arg : α) (j : Nat), parse_arg line i flag = some (arg, j) ∧ i ≤ j)
      ∧ (∀ isFold op (temp cur : α) ok cnt i,
          (∃ r, ∀ m, arg_loop line isFold op temp (m + 1) cur ok cnt i = some r)
          ∨ (∃ cur' ok' i', i < i' ∧ ∀ m, arg_loop line isFold op temp (m + 1) cur ok cnt i
                = arg_loop line isFold op temp m cur' ok' (cnt + 1) i'))
      ∧ (∀ isFold op (temp cur : α) ok cnt i,
          ∃ r, arg_loop line isFold op temp (line.length - i + 1) cur ok cnt i = some r) := by
  refine ⟨?_, ?_, ?_, ?_, ?_⟩
  · obtain ⟨r, hr, -⟩ := process_line_core_total (fold_flag line) v line (fun _ => True)
      closed_true trivial
    exact ⟨r, hr⟩
  · intro i
    obtain ⟨j, hj, hij, -⟩ := skip_ws_total line i
    exact ⟨j, hj, hij⟩
  · intro flag i
    obtain ⟨arg, j, hj, -, hij, -⟩ := @parse_arg_total α _ line flag i (fun _ => True) closed_true
    exact ⟨arg, j, hj, hij⟩
  · intro isFold op temp cur ok cnt i
    exact arg_loop_step line isFold op temp cur ok cnt i
  · intro isFold op temp cur ok cnt i
    obtain ⟨r, hr, -⟩ := arg_loop_total line isFold op temp (fun _ => True) closed_true trivial
      (line.length - i + 1) cur ok cnt i trivial (by omega) (by omega)
    exact ⟨r, hr⟩

end Robust4

theorem charAt_ne_nul_lt {line : List Char} {j : Nat} {c : Char} (h : charAt line j = c)
    (hc : c ≠ '\x00') : j < line.length := by
  by_contra hh
  rw [charAt_of_le (by omega)] at h
  exact hc h.symm

/-- C20 (the code on every line): the fold-mode detection reads within the line
exactly when the line is not the single character `(`, where it reads index 2 of
a line of size 1; the reads of `parse_op` are within the line on every line. -/
theorem reads_within_line (line : List Char) :
    ((∀ k ∈ fold_flag_reads line, k ≤ line.length) ↔ line ≠ ['('])
      ∧ (∀ k ∈ parse_op_reads line 0, k ≤ line.length) := by
  constructor
  · rcases line with _ | ⟨c, t⟩
    · simp [fold_flag_reads, charAt]
    · by_cases hc : c = '('
      · subst hc
        rcases t with _ | ⟨c1, t⟩
        · simp [fold_flag_reads, charAt]
        · simp [fold_flag_reads, charAt]
      · simp [fold_flag_reads, charAt, hc]
  · intro k hk
    unfold parse_op_reads at hk
    simp only [Nat.zero_add] at hk
    by_cases hS : charAt line 0 = 'S'
    · have l0 := charAt_ne_nul_lt hS (by decide)
      simp only [hS, if_true] at hk
      by_cases hQ : charAt line 1 = 'Q'
      · have l1 := charAt_ne_nul_lt hQ (by decide)
        simp only [hQ, if_true] at hk
        by_cases hR : charAt line 2 = 'R'
        · have l2 := charAt_ne_nul_lt hR (by decide)
          simp only [hR, if_true] at hk
          simp at hk
          omega
        · simp only [hR, if_false] at hk
          simp at hk
          omega
      · simp only [hQ, if_false] at hk
        simp at hk
        omega
    · simp only [hS, if_false] at hk
      by_cases hP : charAt line 0 = '('
      · have l0 := charAt_ne_nul_lt hP (by decide)
        simp only [hP, if_true] at hk
        split_ifs at hk with hsym
        · have l1 : 1 < line.length := by
            rcases hsym with h | h | h | h | h | h <;> exact charAt_ne_nul_lt h (by decide)
          simp at hk
          omega
        · simp at hk
          omega
      · simp only [hP, if_false] at hk
        simp at hk
        omega

/-- C16 (as stated, refuted): the Set line `1.2.3` has two decimal points, yet
the second one is consumed and the line is accepted: from `7` it returns `1.23`. -/
theorem second_decimal_point_consumed :
    process_line (7 : ℚ) "1.2.3".toList = some (123 / 100)
      ∧ process_line (7 : ℚ) "1.2.3".toList ≠ some 7 := by
  have h : process_line (7 : ℚ) "1.2.3".toList = some (Literal.value ⟨[1], some [2, 3]⟩) := rfl
  have n1 : decimalNat [1] = 1 := rfl
  have n23 : decimalNat [2, 3] = 23 := rfl
  have hv : process_line (7 : ℚ) "1.2.3".toList = some (123 / 100) := by
    rw [h, Literal.value_rat]
    simp [Literal.toRat, n1, n23]; norm_num
  refine ⟨hv, ?_⟩
  rw [hv]
  simp
  norm_num

/-- The failing input of the reads: on the line `(`, of size 1, the fold-mode
detection reads `line[0]` and `line[2]`; index 2 is beyond `line.size()`. -/
theorem fold_detection_reads_past_terminator :
    fold_flag_reads "(".toList = [0, 2] ∧ "(".toList.length = 1
      ∧ ¬ (∀ k ∈ fold_flag_reads "(".toList, k ≤ "(".toList.length) :=
  ⟨rfl, rfl, fun h => (reads_within_line "(".toList).1.mp h rfl⟩

section DottedLines
variable {α : Type} [Arith α]

/-- A `Set` line or a bare symbol followed by digits and groups of `.` and
digits, of at most 10 digits in all. -/
theorem process_line_dotted (v : α) (d : Fin 10) (ints : List (Fin 10))
    (groups : List (List (Fin 10))) (hne : ∀ g ∈ groups, g ≠ [])
    (hd : (d :: ints).length + (groupsDigits groups).length ≤ max_decimal_digits) :
    process_line v (digitsText (d :: ints) ++ groupsText groups)
        = some (Literal.value ⟨d :: ints, some (groupsDigits groups)⟩ : α)
      ∧ ∀ s, isBinarySymbol s →
          process_line v (s :: (digitsText (d :: ints) ++ groupsText groups))
            = some (if symbolOp s = Op.REM ∧ d = 0 then v
                    else binary (symbolOp s) v
                      (Literal.value ⟨d :: ints, some (groupsDigits groups)⟩ : α)) := by
  have htext : digitsText (d :: ints) ++ groupsText groups
      = digitChar d :: (digitsText ints ++ groupsText groups) := by simp [digitsText]
  constructor
  · have hdig := isdigit_digitChar d
    have hl : (digitsText (d :: ints) ++ groupsText groups).length
        = (digitsText ints ++ groupsText groups).length + 1 := by rw [htext]; rfl
    have hp := @parse_arg_dotted_end α _ (digitsText (d :: ints) ++ groupsText groups) 0 false
      (d :: ints) groups (by simp) (by omega) hne hd
    have hloop := arg_loop_single_parsed (digitsText (d :: ints) ++ groupsText groups) false
      Op.SET v v (digitsText ints ++ groupsText groups).length 0 0 [] d
      (digitsText ints ++ groupsText groups) _ (by simp [htext]) (by simp) (by simpa using hp)
    rw [process_line, process_line_core]
    have hop : parse_op (digitsText (d :: ints) ++ groupsText groups) 0 = (Op.SET, 0) := by
      rw [htext]; exact parse_op_digit _ _ hdig
    have hff : fold_flag (digitsText (d :: ints) ++ groupsText groups) = false := by
      rw [htext]; exact fold_flag_of_ne _ _ (isdigit_ne_paren hdig)
    have hc0 : charAt (digitsText (d :: ints) ++ groupsText groups) 0 = digitChar d := by
      rw [htext]; simp [charAt]
    simp only [hop, hff, arity, if_true, hc0, hdig]
    have hc : ¬ ((digitsText (d :: ints) ++ groupsText groups).length = 1 ∧ true = false
        ∨ (digitsText (d :: ints) ++ groupsText groups).length > 1
          ∧ 0 = (digitsText (d :: ints) ++ groupsText groups).length) := by
      rw [hl]; simp
    rw [if_neg hc, hl, hloop]
    simp [binary]
  · intro s hs
    have hl : (s :: (digitsText (d :: ints) ++ groupsText groups)).length
        = (digitsText ints ++ groupsText groups).length + 2 := by rw [htext]; rfl
    have hp := @parse_arg_dotted_end α _ (s :: (digitsText (d :: ints) ++ groupsText groups)) 1
      false (d :: ints) groups (by simp) (by rw [hl]; omega) hne hd
    have hloop := arg_loop_single_parsed (s :: (digitsText (d :: ints) ++ groupsText groups))
      false (symbolOp s) v v ((digitsText ints ++ groupsText groups).length + 1) 0 1 [] d
      (digitsText ints ++ groupsText groups) _ (by simp [htext]) (by simp) (by simpa using hp)
    rw [process_line, fold_flag_of_ne s _ hs.ne_paren, process_line_core]
    simp only [parse_op_bare s _ hs, arity_symbolOp s hs, if_true]
    have hc : ¬ ((s :: (digitsText (d :: ints) ++ groupsText groups)).length = 1
          ∧ isdigit (charAt (s :: (digitsText (d :: ints) ++ groupsText groups)) 1) = false
        ∨ (s :: (digitsText (d :: ints) ++ groupsText groups)).length > 1
          ∧ 1 = (s :: (digitsText (d :: ints) ++ groupsText groups)).length) := by
      rw [hl]; omega
    rw [if_neg hc, hl, hloop]

theorem symbolOp_eq_rem_iff (s : Char) (hs : isBinarySymbol s) :
    symbolOp s = Op.REM ↔ s = '%' := by
  rcases hs with rfl | rfl | rfl | rfl | rfl | rfl <;> decide

/-- C16 (amended): a literal may hold several decimal points.  For an implicit
`Set` line, or a bare symbol `+ - * / % ^` (remainder lines whose literal starts
with the digit `0` left aside), whose argument is digits followed by groups of
`.` and digits, with at most 10 digits in all: every `.` is consumed and the
line is accepted.  The argument has the value of the literal obtained by
dropping every `.` after the first; `Set` returns it and a bare symbol applies
its operator once to `v` and it. -/
theorem several_decimal_points_accepted (v : α) (d : Fin 10) (ints : List (Fin 10))
    (groups : List (List (Fin 10))) (hne : ∀ g ∈ groups, g ≠ [])
    (hd : (d :: ints).length + (groupsDigits groups).length ≤ max_decimal_digits) :
    process_line v (digitsText (d :: ints) ++ groupsText groups)
        = some (Literal.value ⟨d :: ints, some (groupsDigits groups)⟩ : α)
      ∧ ∀ s, isBinarySymbol s → ¬ (s = '%' ∧ d = 0) →
          process_line v (s :: (digitsText (d :: ints) ++ groupsText groups))
            = some (combine s v
                (Literal.value ⟨d :: ints, some (groupsDigits groups)⟩ : α)) := by
  obtain ⟨h1, h2⟩ := process_line_dotted v d ints groups hne hd
  refine ⟨h1, fun s hs hnot => ?_⟩
  have hcond : ¬ (symbolOp s = Op.REM ∧ d = 0) := by
    rw [symbolOp_eq_rem_iff s hs]; exact hnot
  rw [h2 s hs, if_neg hcond, binary_symbolOp s hs]

end DottedLines

theorem several_decimal_points_accepted_witness :
    process_line (7 : ℚ) "1.2.3".toList = some (123 / 100)
      ∧ process_line (7 : ℚ) "+1.2.3".toList = some (823 / 100)
      ∧ process_line (7 : ℚ) "%1.2.5".toList = some (3 / 4) := by
  have h := several_decimal_points_accepted (7 : ℚ) 1 [] [[2], [3]]
    (by intro g hg; simp at hg; rcases hg with rfl | rfl <;> simp)
    (by simp [groupsDigits, max_decimal_digits])
  have h' := several_decimal_points_accepted (7 : ℚ) 1 [] [[2], [5]]
    (by intro g hg; simp at hg; rcases hg with rfl | rfl <;> simp)
    (by simp [groupsDigits, max_decimal_digits])
  have ht : "1.2.3".toList = digitsText [1] ++ groupsText [[2], [3]] := by decide
  have ht2 : "+1.2.3".toList = '+' :: (digitsText [1] ++ groupsText [[2], [3]]) := by decide
  have ht3 : "%1.2.5".toList = '%' :: (digitsText [1] ++ groupsText [[2], [5]]) := by decide
  have hg : groupsDigits [[2], [3]] = [2, 3] := rfl
  have hg' : groupsDigits [[2], [5]] = [2, 5] := rfl
  have n1 : decimalNat [1] = 1 := rfl
  have n23 : decimalNat [2, 3] = 23 := rfl
  have n25 : decimalNat [2, 5] = 25 := rfl
  have hdiv : Int.tdiv 28 5 = 5 := rfl
  rw [ht, ht2, ht3, h.1, h.2 '+' (Or.inl rfl) (by decide),
    h'.2 '%' (by simp [isBinarySymbol]) (by decide), hg, hg', Literal.value_rat,
    Literal.value_rat]
  refine ⟨?_, ?_, ?_⟩
  · simp [Literal.toRat, n1, n23]; norm_num
  · simp [combine, Literal.toRat, n1, n23]; norm_num
  · simp [combine, Literal.toRat, n1, n25, ratFmod]
    norm_num [hdiv]

/-! ## Rounding -/

theorem roundHalfEven_intCast (z : ℤ) : roundHalfEven (z : ℚ) = z := by
  simp [roundHalfEven]

theorem round53_zero : round53 0 = 0 := by
  simp [round53]

/-- The floor of the binary logarithm, from a bracketing by powers of two. -/
theorem log2_eq_of_bounds {q : ℚ} {e : ℤ} (h1 : (2 : ℚ) ^ e ≤ q) (h2 : q < (2 : ℚ) ^ (e + 1)) :
    Int.log 2 q = e := by
  have hq : 0 < q := lt_of_lt_of_le (by positivity) h1
  have hle : e ≤ Int.log 2 q := by
    have := (Int.zpow_le_iff_le_log (R := ℚ) (b := 2) (by norm_num) hq (x := e)).mp
      (by simpa using h1)
    exact this
  have hlt : Int.log 2 q < e + 1 := by
    have := (Int.lt_zpow_iff_log_lt (R := ℚ) (b := 2) (by norm_num) hq (x := e + 1)).mp
      (by simpa using h2)
    exact this
  omega

/-- Evaluation of `round53` on a positive rational from its binary exponent and
the rounded significand. -/
theorem round53_eval {q : ℚ} {s m : ℤ} (h1 : (2 : ℚ) ^ (s + 52) ≤ q)
    (h2 : q < (2 : ℚ) ^ (s + 52 + 1)) (hm : roundHalfEven (q / (2 : ℚ) ^ s) = m) :
    round53 q = (m : ℚ) * (2 : ℚ) ^ s := by
  have hq : 0 < q := lt_of_lt_of_le (by positivity) h1
  have hlog := log2_eq_of_bounds h1 h2
  have habs : |q| = q := abs_of_pos hq
  have hs : s + 52 - 52 = s := by omega
  simp only [round53, habs, hlog, hs, hm, hq.ne', if_false, not_lt.mpr hq.le, one_mul]

/-- A value with a significand of at most 53 bits is not changed by rounding. -/
theorem round53_natCast (n : ℕ) (hn : n < 2 ^ 53) : round53 (n : ℚ) = n := by
  rcases Nat.eq_zero_or_pos n with rfl | hpos
  · simp [round53_zero]
  · have hL : Nat.log 2 n < 53 := Nat.log_lt_of_lt_pow (by omega) hn
    have hlow : 2 ^ Nat.log 2 n ≤ n := Nat.pow_log_le_self 2 (by omega)
    have hhigh : n < 2 ^ (Nat.log 2 n + 1) := Nat.lt_pow_succ_log_self (by norm_num) n
    obtain ⟨k, hk⟩ : ∃ k : ℕ, Nat.log 2 n + k = 52 := ⟨52 - Nat.log 2 n, by omega⟩
    have hs : ((Nat.log 2 n : ℤ) - 52) + 52 = (Nat.log 2 n : ℤ) := by omega
    have h1 : (2 : ℚ) ^ (((Nat.log 2 n : ℤ) - 52) + 52) ≤ (n : ℚ) := by
      rw [hs, zpow_natCast]
      exact_mod_cast hlow
    have h2 : (n : ℚ) < (2 : ℚ) ^ (((Nat.log 2 n : ℤ) - 52) + 52 + 1) := by
      rw [hs]
      have : ((Nat.log 2 n : ℤ) + 1) = ((Nat.log 2 n + 1 : ℕ) : ℤ) := by push_cast; ring
      rw [this, zpow_natCast]
      exact_mod_cast hhigh
    have hsk : ((Nat.log 2 n : ℤ) - 52) = -(k : ℤ) := by omega
    have hscaled : (n : ℚ) / (2 : ℚ) ^ ((Nat.log 2 n : ℤ) - 52) = ((n * 2 ^ k : ℕ) : ℤ) := by
      rw [hsk, zpow_neg, zpow_natCast]
      push_cast
      field_simp
    have hm : roundHalfEven ((n : ℚ) / (2 : ℚ) ^ ((Nat.log 2 n : ℤ) - 52))
        = ((n * 2 ^ k : ℕ) : ℤ) := by
      rw [hscaled, roundHalfEven_intCast]
    rw [round53_eval h1 h2 hm, hsk, zpow_neg, zpow_natCast]
    push_cast
    field_simp

/-! ## Literals in rounded arithmetic -/

theorem decimal_foldl_ge (ds : List (Fin 10)) :
    ∀ n : ℕ, n ≤ ds.foldl (fun n d => 10 * n + d.val) n := by
  induction ds with
  | nil => intro n; simp
  | cons d ds ih =>
    intro n
    simp only [List.foldl_cons]
    exact le_trans (by omega) (ih (10 * n + d.val))

theorem decimal_foldl_lt (ds : List (Fin 10)) :
    ∀ n : ℕ, ds.foldl (fun n d => 10 * n + d.val) n < (n + 1) * 10 ^ ds.length := by
  induction ds with
  | nil => intro n; simp
  | cons d ds ih =>
    intro n
    simp only [List.foldl_cons, List.length_cons]
    have h := ih (10 * n + d.val)
    have hd : d.val < 10 := d.isLt
    calc ds.foldl (fun n d => 10 * n + d.val) (10 * n + d.val)
        < (10 * n + d.val + 1) * 10 ^ ds.length := h
      _ ≤ ((n + 1) * 10) * 10 ^ ds.length := Nat.mul_le_mul_right _ (by omega)
      _ = (n + 1) * 10 ^ (ds.length + 1) := by rw [pow_succ]; ring

theorem decimalNat_lt (ds : List (Fin 10)) (h : ds.length ≤ 10) : decimalNat ds < 2 ^ 53 := by
  have h1 := decimal_foldl_lt ds 0
  have h2 : (10 : ℕ) ^ ds.length ≤ 10 ^ 10 := Nat.pow_le_pow_right (by norm_num) h
  have h3 : (10 : ℕ) ^ 10 < 2 ^ 53 := by norm_num
  simp only [decimalNat]
  omega

theorem intValueFrom_bin64 (pw : Bin64 → Bin64 → Bin64) (sq : Bin64 → Bin64)
    (ds : List (Fin 10)) :
    ∀ n : ℕ, ds.foldl (fun n d => 10 * n + d.val) n < 2 ^ 53 →
      @intValueFrom Bin64 (bin64Arith pw sq) ⟨(n : ℚ)⟩ ds
        = ⟨((ds.foldl (fun n d => 10 * n + d.val) n : ℕ) : ℚ)⟩ := by
  induction ds with
  | nil => intro n _; rfl
  | cons d ds ih =>
    intro n hn
    simp only [List.foldl_cons] at hn ⊢
    have hge := decimal_foldl_ge ds (10 * n + d.val)
    have hd : d.val < 10 := d.isLt
    have h10 : round53 ((10 : ℕ) : ℚ) = ((10 : ℕ) : ℚ) := round53_natCast 10 (by norm_num)
    have hdv : round53 ((d.val : ℕ) : ℚ) = ((d.val : ℕ) : ℚ) :=
      round53_natCast d.val (by omega)
    have hmul : round53 ((n : ℚ) * ((10 : ℕ) : ℚ)) = ((n * 10 : ℕ) : ℚ) := by
      have := round53_natCast (n * 10) (by omega)
      rw [← this]; push_cast; rfl
    have hadd : round53 (((n * 10 : ℕ) : ℚ) + ((d.val : ℕ) : ℚ)) = ((10 * n + d.val : ℕ) : ℚ) := by
      have := round53_natCast (10 * n + d.val) (by omega)
      rw [← this]; push_cast; ring_nf
    have hstep : @Arith.add Bin64 (bin64Arith pw sq)
        (@Arith.mul Bin64 (bin64Arith pw sq) ⟨(n : ℚ)⟩ (@Arith.ofNat Bin64 (bin64Arith pw sq) 10))
        (@Arith.ofNat Bin64 (bin64Arith pw sq) d.val) = ⟨((10 * n + d.val : ℕ) : ℚ)⟩ := by
      show (⟨round53 (round53 ((n : ℚ) * round53 ((10 : ℕ) : ℚ)) + round53 ((d.val : ℕ) : ℚ))⟩
        : Bin64) = _
      rw [h10, hdv, hmul, hadd]
    show @intValueFrom Bin64 (bin64Arith pw sq) _ ds = _
    rw [hstep]
    exact ih (10 * n + d.val) hn

/-- In rounded arithmetic a literal without a fractional part, of at most 10
digits, has exactly the value it denotes. -/
theorem Literal.value_bin64_of_integer (pw : Bin64 → Bin64 → Bin64) (sq : Bin64 → Bin64)
    (x : Literal) (hf : x.frac = none) (hd : x.digits ≤ max_decimal_digits) :
    @Literal.value Bin64 (bin64Arith pw sq) x = ⟨(decimalNat x.ints : ℚ)⟩ := by
  rcases x with ⟨ints, frac⟩
  simp only at hf
  subst hf
  simp only [Literal.digits, max_decimal_digits] at hd
  have h0 : @Arith.ofNat Bin64 (bin64Arith pw sq) 0 = ⟨((0 : ℕ) : ℚ)⟩ := by
    show (⟨round53 ((0 : ℕ) : ℚ)⟩ : Bin64) = _
    rw [round53_natCast 0 (by norm_num)]
  show @intValueFrom Bin64 (bin64Arith pw sq) (@Arith.ofNat Bin64 (bin64Arith pw sq) 0) ints = _
  rw [h0]
  exact intValueFrom_bin64 pw sq ints 0 (decimalNat_lt ints hd)

theorem round53_tenth : round53 (1 / 10) = 7205759403792794 / 2 ^ 56 := by
  have hf : ⌊((1 : ℚ) / 10) / (2 : ℚ) ^ (-56 : ℤ)⌋ = 7205759403792793 := by
    rw [Int.floor_eq_iff]; norm_num
  have hm : roundHalfEven (((1 : ℚ) / 10) / (2 : ℚ) ^ (-56 : ℤ)) = 7205759403792794 := by
    simp only [roundHalfEven, hf]
    norm_num
  have h := round53_eval (q := 1 / 10) (s := -56) (m := 7205759403792794) (by norm_num)
    (by norm_num) hm
  rw [h]; norm_num

theorem round53_three_tenths :
    round53 (3 * (7205759403792794 / 2 ^ 56)) = 5404319552844596 / 2 ^ 54 := by
  have hf : ⌊((3 : ℚ) * (7205759403792794 / 2 ^ 56)) / (2 : ℚ) ^ (-54 : ℤ)⌋
      = 5404319552844595 := by
    rw [Int.floor_eq_iff]; norm_num
  have hm : roundHalfEven (((3 : ℚ) * (7205759403792794 / 2 ^ 56)) / (2 : ℚ) ^ (-54 : ℤ))
      = 5404319552844596 := by
    simp only [roundHalfEven, hf]
    norm_num
  have h := round53_eval (q := 3 * (7205759403792794 / 2 ^ 56)) (s := -54)
    (m := 5404319552844596) (by norm_num) (by norm_num) hm
  rw [h]; norm_num

theorem round53_nearest_three_tenths : round53 (3 / 10) = 5404319552844595 / 2 ^ 54 := by
  have hf : ⌊((3 : ℚ) / 10) / (2 : ℚ) ^ (-54 : ℤ)⌋ = 5404319552844595 := by
    rw [Int.floor_eq_iff]; norm_num
  have hm : roundHalfEven (((3 : ℚ) / 10) / (2 : ℚ) ^ (-54 : ℤ)) = 5404319552844595 := by
    simp only [roundHalfEven, hf]
    norm_num
  have h := round53_eval (q := 3 / 10) (s := -54) (m := 5404319552844595) (by norm_num)
    (by norm_num) hm
  rw [h]; norm_num

theorem round53_fixed : round53 (0 + 5404319552844596 / 2 ^ 54) = 5404319552844596 / 2 ^ 54 := by
  have hm : roundHalfEven (((0 : ℚ) + 5404319552844596 / 2 ^ 54) / (2 : ℚ) ^ (-54 : ℤ))
      = 5404319552844596 := by
    have : ((0 : ℚ) + 5404319552844596 / 2 ^ 54) / (2 : ℚ) ^ (-54 : ℤ)
        = ((5404319552844596 : ℤ) : ℚ) := by norm_num
    rw [this, roundHalfEven_intCast]
  have h := round53_eval (q := 0 + 5404319552844596 / 2 ^ 54) (s := -54)
    (m := 5404319552844596) (by norm_num) (by norm_num) hm
  rw [h]; norm_num

section RoundedSet
variable {α : Type} [Arith α]

/-- C2 (amended): a line that is one well-formed literal of at most 10 digits
sets the accumulator to the value the scanner accumulates for it (integer part
as `value * 10 + digit`; for each fractional digit `fraction` is divided by 10
and `digit * fraction` is added), whatever the accumulator was.  In exact
arithmetic that value is the decimal number denoted; in the rounded arithmetic
of `double` it is that number exactly when the literal has no fractional part. -/
theorem set_returns_literal_value (v w : α) (x : Literal) (hx : x.wellFormed)
    (hd : x.digits ≤ max_decimal_digits) :
    process_line v x.text = some (x.value : α)
      ∧ process_line w x.text = process_line v x.text
      ∧ (∀ q : ℚ, process_line q x.text = some x.toRat)
      ∧ (x.frac = none → ∀ (pw : Bin64 → Bin64 → Bin64) (sq : Bin64 → Bin64) (b : Bin64),
          @process_line Bin64 (bin64Arith pw sq) b x.text
            = some ⟨(decimalNat x.ints : ℚ)⟩) := by
  refine ⟨process_line_set v x hx hd, ?_, ?_, ?_⟩
  · rw [process_line_set v x hx hd, process_line_set w x hx hd]
  · intro q
    rw [process_line_set q x hx hd, Literal.value_rat]
  · intro hf pw sq b
    rw [@process_line_set Bin64 (bin64Arith pw sq) b x hx hd,
      Literal.value_bin64_of_integer pw sq x hf hd]

/-- C12: double negation restores the accumulator.  Two lines `_` return
`-(-v)`, which is `v` in exact arithmetic, in the rounded arithmetic of `double`
and in the arithmetic with a NaN, where unary minus only changes the sign. -/
theorem double_negation_restores (v : α) :
    (∃ r, process_line v ['_'] = some r
        ∧ process_line r ['_'] = some (Arith.neg (Arith.neg v)))
      ∧ (∀ q : ℚ, ∃ r, process_line q ['_'] = some r ∧ process_line r ['_'] = some q)
      ∧ (∀ (pw : Bin64 → Bin64 → Bin64) (sq : Bin64 → Bin64) (b : Bin64),
          ∃ r, @process_line Bin64 (bin64Arith pw sq) b ['_'] = some r
            ∧ @process_line Bin64 (bin64Arith pw sq) r ['_'] = some b)
      ∧ (∀ x : Dbl, ∃ r, process_line x ['_'] = some r ∧ process_line r ['_'] = some x) := by
  refine ⟨⟨Arith.neg v, rfl, rfl⟩, ?_, ?_, ?_⟩
  · intro q
    refine ⟨-q, rfl, ?_⟩
    have h : process_line (-q) ['_'] = some (- -q) := rfl
    rw [h, neg_neg]
  · intro pw sq b
    refine ⟨⟨-b.val⟩, rfl, ?_⟩
    have h : @process_line Bin64 (bin64Arith pw sq) ⟨-b.val⟩ ['_'] = some ⟨- -b.val⟩ := rfl
    rw [h, neg_neg]
  · intro x
    cases x with
    | fin q =>
      refine ⟨Dbl.fin (-q), rfl, ?_⟩
      have h : process_line (Dbl.fin (-q)) ['_'] = some (Dbl.fin (- -q)) := rfl
      rw [h, neg_neg]
    | nan => exact ⟨Dbl.nan, rfl, rfl⟩

end RoundedSet

/-- C2 (as stated, refuted): in the rounded arithmetic of `double` the line
`0.3` returns `5404319552844596 / 2^54` (0.30000000000000004...), which is not
the decimal value `3/10` the literal denotes, nor the `double` nearest to it. -/
theorem fractional_literal_is_rounded :
    (∀ (pw : Bin64 → Bin64 → Bin64) (sq : Bin64 → Bin64),
        @process_line Bin64 (bin64Arith pw sq) ⟨7⟩ "0.3".toList
          = some ⟨5404319552844596 / 2 ^ 54⟩)
      ∧ (Literal.toRat ⟨[0], some [3]⟩ = 3 / 10)
      ∧ ((5404319552844596 / 2 ^ 54 : ℚ) ≠ 3 / 10)
      ∧ (round53 (3 / 10) = 5404319552844595 / 2 ^ 54) := by
  refine ⟨?_, ?_, by norm_num, round53_nearest_three_tenths⟩
  · intro pw sq
    have ht : "0.3".toList = (⟨[0], some [3]⟩ : Literal).text := by decide
    have hv : @Literal.value Bin64 (bin64Arith pw sq) ⟨[0], some [3]⟩
        = ⟨5404319552844596 / 2 ^ 54⟩ := by
      show (⟨round53 (round53 (round53 (round53 ((0 : ℕ) : ℚ) * round53 ((10 : ℕ) : ℚ))
          + round53 ((0 : ℕ) : ℚ))
        + round53 (round53 ((3 : ℕ) : ℚ)
            * round53 (round53 ((1 : ℕ) : ℚ) / round53 ((10 : ℕ) : ℚ))))⟩ : Bin64) = _
      rw [round53_natCast 0 (by norm_num), round53_natCast 10 (by norm_num),
        round53_natCast 3 (by norm_num), round53_natCast 1 (by norm_num)]
      have e1 : (((0 : ℕ) : ℚ) * ((10 : ℕ) : ℚ)) = 0 := by norm_num
      have e2 : ((0 : ℚ) + ((0 : ℕ) : ℚ)) = 0 := by norm_num
      have e3 : (((1 : ℕ) : ℚ) / ((10 : ℕ) : ℚ)) = 1 / 10 := by norm_num
      have e4 : ((3 : ℕ) : ℚ) = 3 := by norm_num
      rw [e1, round53_zero, e2, round53_zero, e3, round53_tenth, e4, round53_three_tenths,
        round53_fixed]
    rw [ht, @process_line_set Bin64 (bin64Arith pw sq) ⟨7⟩ ⟨[0], some [3]⟩ ⟨by simp, by simp⟩
      (by simp [Literal.digits, max_decimal_digits]), hv]
  · have n0 : decimalNat [0] = 0 := rfl
    have n3 : decimalNat [3] = 3 := rfl
    simp [Literal.toRat, n0, n3]

theorem set_returns_literal_value_witness :
    process_line (7 : ℚ) "12.25".toList = some (49 / 4)
      ∧ process_line (0 : ℚ) "12.25".toList = process_line (7 : ℚ) "12.25".toList
      ∧ (∀ (pw : Bin64 → Bin64 → Bin64) (sq : Bin64 → Bin64),
          @process_line Bin64 (bin64Arith pw sq) ⟨7⟩ "5".toList = some ⟨5⟩) := by
  have h := set_returns_literal_value (7 : ℚ) 0 ⟨[1, 2], some [2, 5]⟩ ⟨by simp, by simp⟩
    (by simp [Literal.digits, max_decimal_digits])
  have h5 := set_returns_literal_value (7 : ℚ) 0 ⟨[5], none⟩ ⟨by simp, by simp⟩
    (by simp [Literal.digits, max_decimal_digits])
  have ht : "12.25".toList = (⟨[1, 2], some [2, 5]⟩ : Literal).text := by decide
  have ht5 : "5".toList = (⟨[5], none⟩ : Literal).text := by decide
  have h1 : decimalNat [1, 2] = 12 := rfl
  have h2 : decimalNat [2, 5] = 25 := rfl
  have n5 : decimalNat [5] = 5 := rfl
  rw [ht, ht5]
  refine ⟨?_, h.2.1, ?_⟩
  · rw [h.2.2.1 7]
    simp [Literal.toRat, h1, h2]
    norm_num
  · intro pw sq
    rw [h5.2.2.2 rfl pw sq ⟨7⟩, n5]
    norm_num

theorem double_negation_restores_witness :
    ∃ r, process_line (3 : ℚ) "_".toList = some r ∧ process_line r "_".toList = some 3 :=
  (double_negation_restores (0 : ℚ)).2.1 3

section CheckedRun
variable {α : Type} [Arith α]

/-! ## The run in checked arithmetic -/

end CheckedRun

end Calc
